import Mathlib

/-!
# Verification of SCALE `scale/dsl.py`

A shallow embedding of the parsing toolkit in `src/scale/dsl.py`:
token data model, the block-tree builder `parse_block`, the tree
utilities `flatten_block` / `flatten_stmt` / `strip_ws` /
`partition` / `rpartition`, the detokenizer `detokenize`, and the
encoding-aware reader inside `tokenize_stream`.

Strings from the Python source are modelled as `List Char`; token
streams as `List Tok`.  Fallible code returns `Except TokErr _`.
-/

namespace Scale

/-! ## Token kinds

Numeric token-type constants from the Python `tokenize`/`token`
modules (values as in the Python 2 `token.py`), plus the module's own
`SUBEXPR` marker. Only distinctness of these values matters.  -/

def ENDMARKER : Nat := 0
def NAME : Nat := 1
def NUMBER : Nat := 2
def STRING : Nat := 3
def NEWLINE : Nat := 4
def INDENT : Nat := 5
def DEDENT : Nat := 6
def OP : Nat := 51
def ERRORTOKEN : Nat := 52
def COMMENT : Nat := 53
def NL : Nat := 54
def SUBEXPR : Nat := 9999

/-- `WHITESPACE = dict.fromkeys([NL,NEWLINE,ENDMARKER,INDENT,DEDENT,COMMENT])` -/
def WHITESPACE : List Nat := [NL, NEWLINE, ENDMARKER, INDENT, DEDENT, COMMENT]

/-- A five-tuple `(tok, val, start, end, line)` as produced by the
tokenizer: numeric kind, token text, start and end positions
(1-based line, 0-based column), and the verbatim source line. -/
structure Tok where
  kind : Nat
  val : List Char
  start : Nat × Nat
  stop : Nat × Nat
  line : List Char
  deriving DecidableEq, Repr

/-- A parse error `TokenError(msg, pos)`.  For the
`"Unclosed parentheses %r" % (tuple(parens[::-1]),)` error the
open-bracket characters interpolated into the message (innermost
first) are carried in `brackets`; for every other error `brackets`
is empty. -/
structure TokErr where
  msg : String
  pos : Nat × Nat
  brackets : List Char := []
  deriving DecidableEq, Repr

/-- `len(s.expandtabs())` for the default tab size 8: a tab advances
the column to the next multiple of 8, `\n`/`\r` reset the column. -/
def expandtabsLen (s : List Char) : Nat :=
  (s.foldl
    (fun (acc : Nat × Nat) c =>
      let (total, col) := acc
      if c = '\t' then (total + (8 - col % 8), 0)
      else if c = '\n' ∨ c = '\r' then (total + 1, 0)
      else (total + 1, col + 1))
    (0, 0)).1

/-! ## `partition` and `rpartition` (dsl.py lines 190-234)

`sep` may be a numeric token type (matching `tok[0]`) or a string
(matching `tok[1]`): `idx = int(not isinstance(sep,int))`. -/

/-- The separator argument of `partition`: an `int` token type or a
token-text string. -/
inductive Sep where
  | kind : Nat → Sep
  | text : List Char → Sep
  deriving DecidableEq, Repr

/-- `tok[idx]==sep` with `idx` chosen by the type of `sep`. -/
def matchSep (t : Tok) : Sep → Bool
  | .kind k => t.kind == k
  | .text s => t.val == s

/-- `partition(tokens, sep)`: split at the first token matching `sep`.
The Python returns `(before, [tok], after)` with `after` the
remainder of the input iterator; the iterator is modelled as the
remaining list. If no token matches, `(before, [], after)` is
returned with `before` holding everything and the iterator spent. -/
def partition : List Tok → Sep → List Tok × List Tok × List Tok
  | [], _ => ([], [], [])
  | t :: ts, sep =>
    if matchSep t sep then ([], [t], ts)
    else
      let (b, m, a) := partition ts sep
      (t :: b, m, a)

/-- `rpartition(tokens, sep)`:
`b,s,a = partition(list(tokens)[::-1], sep); b.reverse();`
`return list(a)[::-1], s, b`. -/
def rpartition (tokens : List Tok) (sep : Sep) : List Tok × List Tok × List Tok :=
  let (b, s, a) := partition tokens.reverse sep
  (a.reverse, s, b.reverse)

/-! ## Physical lines

`StringIO(text)` iterates the physical lines of `text`, each keeping
its trailing newline. -/

def physLines : List Char → List (List Char)
  | [] => []
  | c :: cs =>
    if c = '\n' then ['\n'] :: physLines cs
    else
      match physLines cs with
      | [] => [[c]]
      | l :: ls => (c :: l) :: ls

theorem physLines_flatten (cs : List Char) : (physLines cs).flatten = cs := by
  induction cs with
  | nil => rfl
  | cons c cs ih =>
    by_cases h : c = '\n'
    · simp [physLines, h, ih]
    · cases hp : physLines cs with
      | nil => simp [physLines, h, hp] at ih ⊢; simpa [hp] using ih
      | cons l ls => simp [physLines, h, hp] at ih ⊢; simpa [hp] using ih

/-! ## The encoding-aware reader (dsl.py lines 42-81)

The inner `reader` generator of `tokenize_stream`, operating on byte
strings (each Python 2 byte is one `Char` here).  `decode` is
modelled as the identity on the character sequence, which is exact
for the ASCII payloads the claims concern; the `isinstance(line,
unicode)` test is always false in this byte-string model. -/

/-- `BOM = '\xef\xbb\xbf'` -/
def BOM : List Char := ['ï', '»', '¿']

/-- Python `\s` for the patterns below. -/
def isPySpace (c : Char) : Bool :=
  c == ' ' || c == '\t' || c == '\n' || c == '\r' || c == '\u000C' || c == '\u000B'

/-- `ENCODING_LINE = re.compile('('+BOM+')|\s*(#.*)?$').match`:
the line starts with the BOM, or is bare (whitespace, then
optionally a `#` comment, up to the end / a final newline). -/
def encodingLine (l : List Char) : Bool :=
  l.take 3 == BOM ||
    (let rest := l.dropWhile isPySpace
     match rest with
     | [] => true
     | '#' :: r => (r.dropWhile (· ≠ '\n')).length ≤ 1
     | _ => false)

/-- A character of `[-\w.]`. -/
def isCodingNameChar (c : Char) : Bool :=
  c == '-' || c == '.' || c == '_' || c.isAlphanum

/-- `FIND_ENCODING = re.compile('coding[:=]\s*([-\w.]+)').search`:
returns the declared name and the start column of group 1 within the
line, at the leftmost position where the whole pattern matches. -/
def findCoding : List Char → Nat → Option (List Char × Nat)
  | [], _ => none
  | c :: cs, i =>
    let here := c :: cs
    if here.take 6 == "coding".toList &&
        (here.get? 6 == some ':' || here.get? 6 == some '=') then
      let after := here.drop 7
      let ws := (after.takeWhile isPySpace).length
      let name := (after.drop ws).takeWhile isCodingNameChar
      if name.isEmpty then findCoding cs (i + 1)
      else some (name, i + 7 + ws)
    else findCoding cs (i + 1)

/-- `encoding.lower() in ('utf8', 'utf-8')` -/
def isUtf8Name (name : List Char) : Bool :=
  let low := name.map Char.toLower
  low == "utf8".toList || low == "utf-8".toList

/-- The body of the reader's header loop after the PEP 263 checks:
yield the (possibly BOM-stripped) line, bump the line counter, stop
scanning once an encoding is known or two lines were seen. -/
def readerGo : Nat → Option (List Char) → Bool → List (List Char) →
    Except TokErr (List (List Char))
  | _, _, _, [] => .ok [[]]
  | lno, enc, bom, line :: rest =>
    if !(encodingLine line) then
      .ok (line :: (rest ++ [[]]))
    else
      let bom1 := bom || (lno == 1 && line.take 3 == BOM)
      let line1 := if lno == 1 && line.take 3 == BOM then line.drop 3 else line
      let enc1 := if lno == 1 && line.take 3 == BOM then some ("utf8".toList) else enc
      match findCoding line1 0 with
      | some (name, col) =>
        if bom1 && !(isUtf8Name name) then
          .error ⟨"UTF-8 BOM, but " ++ String.mk name ++ " encoding requested",
            (lno, col), []⟩
        else
          -- the encoding is now set, so the header loop stops here
          .ok (line1 :: (rest ++ [[]]))
      | none =>
        if enc1.isSome || lno + 1 > 2 then
          .ok (line1 :: (rest ++ [[]]))
        else
          match readerGo (lno + 1) enc1 bom1 rest with
          | .error e => .error e
          | .ok out => .ok (line1 :: out)

/-- The reader generator of `tokenize_stream`: PEP 263 header
handling, then the remaining lines, then a final `''`. -/
def readerModel (f : List (List Char)) : Except TokErr (List (List Char)) :=
  readerGo 1 none false f

/-! ## The lexical scanner

Modelled from the spec: the spec treats the low-level scanner
(`tokenize.generate_tokens`, not part of this repository) as an
external collaborator (spec section 4.2) producing positioned
NAME/NUMBER/OP/NEWLINE/NL/COMMENT tokens with INDENT/DEDENT/end
markers, raising a lexical error at end of input inside brackets.
The model below reproduces that contract — positions, bracket level,
indentation stack, end-of-file behaviour — as fixed by the
repository's own tests (`test_dsl.py`), restricted to the lexical
fragment those tests and the spec's examples exercise: names,
integer numbers, single-character operators and brackets, spaces,
comments, and newlines; no string literals, tabs or backslash
continuations. -/

theorem length_dropWhile_le (p : Char → Bool) (cs : List Char) :
    (cs.dropWhile p).length ≤ cs.length := by
  induction cs with
  | nil => simp
  | cons c cs ih =>
    by_cases h : p c
    · simp [List.dropWhile, h]; omega
    · simp [List.dropWhile, h]

def isNameStart (c : Char) : Bool := c.isAlpha || c == '_'

def isNameCont (c : Char) : Bool := c.isAlphanum || c == '_'

/-- Scan the remainder of one physical line from column `pos`,
returning its tokens and the updated bracket nesting level.  The
`fuel` argument (an upper bound on the remaining characters, always
supplied as the line length) only makes the recursion structural; it
is never exhausted. -/
def scanChars (lnum : Nat) (line : List Char) :
    Nat → Int → Nat → List Char → List Tok × Int
  | 0, plev, _, _ => ([], plev)
  | _ + 1, plev, _, [] => ([], plev)
  | fuel + 1, plev, pos, c :: cs =>
    if c = ' ' then scanChars lnum line fuel plev (pos + 1) cs
    else if isNameStart c then
      let w := c :: cs.takeWhile isNameCont
      let rest := cs.dropWhile isNameCont
      let (ts, p') := scanChars lnum line fuel plev (pos + w.length) rest
      (⟨NAME, w, (lnum, pos), (lnum, pos + w.length), line⟩ :: ts, p')
    else if c.isDigit then
      let w := c :: cs.takeWhile Char.isDigit
      let rest := cs.dropWhile Char.isDigit
      let (ts, p') := scanChars lnum line fuel plev (pos + w.length) rest
      (⟨NUMBER, w, (lnum, pos), (lnum, pos + w.length), line⟩ :: ts, p')
    else if c = '\n' then
      let k := if plev == 0 then NEWLINE else NL
      let (ts, p') := scanChars lnum line fuel plev (pos + 1) cs
      (⟨k, ['\n'], (lnum, pos), (lnum, pos + 1), line⟩ :: ts, p')
    else if c = '(' ∨ c = '[' ∨ c = '{' then
      let (ts, p') := scanChars lnum line fuel (plev + 1) (pos + 1) cs
      (⟨OP, [c], (lnum, pos), (lnum, pos + 1), line⟩ :: ts, p')
    else if c = ')' ∨ c = ']' ∨ c = '}' then
      let (ts, p') := scanChars lnum line fuel (plev - 1) (pos + 1) cs
      (⟨OP, [c], (lnum, pos), (lnum, pos + 1), line⟩ :: ts, p')
    else
      let (ts, p') := scanChars lnum line fuel plev (pos + 1) cs
      (⟨OP, [c], (lnum, pos), (lnum, pos + 1), line⟩ :: ts, p')

/-- The end-of-input tokens: one DEDENT per remaining indentation
level above the bottom, then the end marker, all at column 0 of the
line past the input. -/
def eofToks (ln : Nat) (indents : List Nat) : List Tok :=
  List.replicate (indents.length - 1) ⟨DEDENT, [], (ln, 0), (ln, 0), []⟩
    ++ [⟨ENDMARKER, [], (ln, 0), (ln, 0), []⟩]

/-- Emit DEDENT tokens while the new column is below the stack top. -/
def popDedents (ln pos col : Nat) : List Nat → List Tok × List Nat
  | [] => ([], [])
  | i :: is =>
    if col < i then
      let (ts, is') := popDedents ln pos col is
      (⟨DEDENT, [], (ln, pos), (ln, pos), []⟩ :: ts, is')
    else ([], i :: is)

/-- The per-line scanner loop: `lnum` counts consumed lines, `plev`
is the bracket nesting level, `indents` the indentation stack (head
is the top). -/
def scanLines : Nat → Int → List Nat → List (List Char) → Except TokErr (List Tok)
  | lnum, plev, indents, [] =>
    if plev == 0 then .ok (eofToks (lnum + 1) indents)
    else .error ⟨"EOF in multi-line statement", (lnum + 1, 0), []⟩
  | lnum, plev, indents, line :: rest =>
    let ln := lnum + 1
    if line.isEmpty then
      -- the reader's final '' line: end of input
      if plev == 0 then .ok (eofToks ln indents)
      else .error ⟨"EOF in multi-line statement", (ln, 0), []⟩
    else if plev == 0 then
      -- new statement: measure the indentation
      let pos := (line.takeWhile (· == ' ')).length
      if pos == line.length then
        .ok (eofToks ln indents)         -- whitespace-only, unterminated line
      else if line.get? pos == some '\n' || line.get? pos == some '\r' then
        match scanLines ln plev indents rest with
        | .error e => .error e
        | .ok ts =>
          .ok (⟨NL, line.drop pos, (ln, pos), (ln, line.length), line⟩ :: ts)
      else if line.get? pos == some '#' then
        match scanLines ln plev indents rest with
        | .error e => .error e
        | .ok ts =>
          .ok (⟨COMMENT, line.drop pos, (ln, pos), (ln, line.length), line⟩ :: ts)
      else
        let top := indents.headD 0
        let (lead, indents') :=
          if pos > top then
            ([⟨INDENT, line.take pos, (ln, 0), (ln, pos), line⟩], pos :: indents)
          else
            let (ds, is') := popDedents ln pos pos indents
            (ds.map (fun d => { d with line := line }), is')
        let (body, plev') := scanChars ln line line.length plev pos (line.drop pos)
        match scanLines ln plev' indents' rest with
        | .error e => .error e
        | .ok ts => .ok (lead ++ body ++ ts)
    else
      -- continued statement inside brackets: no indentation handling
      let (body, plev') := scanChars ln line line.length plev 0 line
      match scanLines ln plev' indents rest with
      | .error e => .error e
      | .ok ts => .ok (body ++ ts)

/-! ## `parse_block` (dsl.py lines 83-150)

The Python builds statements as mutable lists holding either plain
token tuples or `(SUBEXPR, subexpr, start, end, line)` placeholders
whose second slot is the (shared) nested list; blocks are mutable
lists of `(statement, block)` pairs.  The immutable rendering:
an `Entry` is a plain token or a subexpression (the placeholder's
position metadata is the open-bracket token itself), a `Tree` is one
`(statement, block)` pair, and a block is a `List Tree`. -/

inductive Entry where
  | tok : Tok → Entry
  | sub : Tok → List Entry → Entry

inductive Tree where
  | node : List Entry → List Tree → Tree

/-- The single mixed `scopes` stack of `parse_block` holds saved
enclosing blocks (pushed on INDENT: the parent block minus its last
pair, plus that pair's statement) and saved enclosing statement
buffers (pushed on an open bracket, with the open token's metadata).
CPython stores raw aliased lists here; popping a frame of the wrong
kind corresponds to the list-aliasing paths that the spec classifies
as programming-invariant violations, modelled as errors below. -/
inductive Frame where
  | blockF : List Tree → List Entry → Frame
  | stmtF : List Entry → Tok → Frame

/-- The loop state of `parse_block`: `scopes`, `parens` and `indents`
are stacks with the head as top (Python appends/pops at the right
end), `scope` is the block currently appended to and `stmt` the
statement buffer currently filled. -/
structure PState where
  scopes : List Frame
  parens : List Char
  indents : List Nat
  scope : List Tree
  stmt : List Entry

/-- `OPEN_PARENS = dict.fromkeys('{[(')` -/
def isOpenParen (v : List Char) : Bool :=
  v == ['{'] || v == ['['] || v == ['(']

/-- `CLOSE_PARENS = {'}':'{', ')':'(', ']':'['}` (membership test) -/
def isCloseParen (v : List Char) : Bool :=
  v == ['}'] || v == [')'] || v == [']']

/-- `CLOSE_PARENS[val]` -/
def closeParenOf (v : List Char) : Char :=
  if v == ['}'] then '{' else if v == [')'] then '(' else '['

/-- The dedent's target column width
`len(line[:start[1]].expandtabs())`. -/
def dedentWidth (t : Tok) : Nat :=
  expandtabsLen (t.line.take t.start.2)

/-- Result of one loop iteration: keep going, or return the finished
top-level block (the `return output` on the ENDMARKER path). -/
inductive StepRes where
  | cont : PState → StepRes
  | done : List Tree → StepRes

/-- One iteration of the `for tok, val, start, end, line in tokens`
loop of `parse_block`.  Assertion failures and list-aliasing pops of
the mixed `scopes` stack are modelled as errors. -/
def pstep (s : PState) (t : Tok) : Except TokErr StepRes :=
  if t.kind == DEDENT || t.kind == ENDMARKER then
    -- exiting a scope
    if t.kind == DEDENT && !(s.indents.contains (dedentWidth t)) then
      .error ⟨"unindent does not match any outer indentation level", t.start, []⟩
    else if t.kind == ENDMARKER && !s.parens.isEmpty then
      -- parens (top of stack first) is Python's tuple(parens[::-1]):
      -- the remaining open brackets innermost-first
      .error ⟨"Unclosed parentheses", t.start, s.parens⟩
    else
      let indents' := if t.kind == DEDENT then s.indents.tail else s.indents
      let scope' := if s.stmt.isEmpty then s.scope else s.scope ++ [.node s.stmt []]
      match s.scopes with
      | f :: rest =>
        if t.kind == ENDMARKER then
          .error ⟨"Missing DEDENT tokens", t.start, []⟩   -- assert tok != ENDMARKER
        else
          match f with
          | .blockF done sav =>
            .ok (.cont { s with scopes := rest, indents := indents',
                                scope := done ++ [.node sav scope'], stmt := [] })
          | .stmtF _ _ =>
            .error ⟨"scope stack corrupt", t.start, []⟩
      | [] =>
        if t.kind == DEDENT then
          .error ⟨"Extra DEDENT tokens", t.start, []⟩      -- assert tok == ENDMARKER
        else
          .ok (.done scope')
  else if t.kind == INDENT then
    match s.scope.getLast? with
    | none => .error ⟨"Unexpected indent", t.start, []⟩    -- no statement above
    | some (.node sav kids) =>
      .ok (.cont { s with scopes := .blockF (s.scope.dropLast) sav :: s.scopes,
                          indents := expandtabsLen t.val :: s.indents,
                          scope := kids })
  else
    if t.kind == OP && isOpenParen t.val then
      -- push the outer statement, start a subexpression holding the
      -- bracket token itself
      .ok (.cont { s with scopes := .stmtF s.stmt t :: s.scopes,
                          parens := headOpenChar t.val :: s.parens,
                          stmt := [.tok t] })
    else
      let stmt' := s.stmt ++ [.tok t]
      if t.kind == OP && isCloseParen t.val then
        match s.parens with
        | [] => .error ⟨"Unmatched " ++ String.mk t.val, t.start, []⟩
        | p :: ps =>
          if p ≠ closeParenOf t.val then
            .error ⟨"Unmatched " ++ String.mk t.val, t.start, []⟩
          else
            match s.scopes with
            | .stmtF outer meta :: rest =>
              .ok (.cont { s with scopes := rest, parens := ps,
                                  stmt := outer ++ [.sub meta stmt'] })
            | _ => .error ⟨"scope stack corrupt", t.start, []⟩
      else if t.kind == NEWLINE then
        .ok (.cont { s with scope := s.scope ++ [.node stmt' []], stmt := [] })
      else
        .ok (.cont { s with stmt := stmt' })
where
  /-- The pushed open-bracket character (`parens.append(val)`). -/
  headOpenChar (v : List Char) : Char := v.headD '('

/-- The loop of `parse_block`; falling off the end of the stream is
the `assert False, "Token stream didn't have an ENDMARKER"`. -/
def parseLoop : PState → List Tok → Except TokErr (List Tree)
  | _, [] => .error ⟨"Token stream didn't have an ENDMARKER", (0, 0), []⟩
  | s, t :: ts =>
    match pstep s t with
    | .error e => .error e
    | .ok (.done b) => .ok b
    | .ok (.cont s') => parseLoop s' ts

/-- `parse_block(tokens)`: initial state `scopes=[] parens=[]`
`indents=[0]` `output=scope=[]` `stmt=[]`. -/
def parse_block (tokens : List Tok) : Except TokErr (List Tree) :=
  parseLoop ⟨[], [], [0], [], []⟩ tokens

/-- `tokenize_string(text)`: the reader wrapped around the physical
lines of `text`, fed to the scanner. -/
def tokenize_string (text : List Char) : Except TokErr (List Tok) :=
  match readerModel (physLines text) with
  | .error e => .error e
  | .ok lines => scanLines 0 0 [0] lines

/-- `parse_block(tokenize_string(text))`.  The Python pipeline is
lazy; sequencing the scanner before the builder is observationally
equal whenever the builder does not fail on a strict prefix of the
tokens preceding a scanner error, which holds for every input
considered here. -/
def parse_source (text : List Char) : Except TokErr (List Tree) :=
  match tokenize_string text with
  | .error e => .error e
  | .ok toks => parse_block toks

/-! ## `flatten_block`, `flatten_stmt`, `strip_ws` (lines 165-187) -/

mutual
/-- One entry of `flatten_stmt`'s loop: a plain token is yielded, a
`SUBEXPR` placeholder is expanded in place (the placeholder itself
is not yielded). -/
def flattenEntry : Entry → List Tok
  | .tok t => [t]
  | .sub _ inner => flatten_stmt inner

/-- `flatten_stmt(statement)`: yield the tokens of a statement. -/
def flatten_stmt : List Entry → List Tok
  | [] => []
  | e :: es => flattenEntry e ++ flatten_stmt es
end

mutual
/-- One `(stmt, subblock)` pair of `flatten_block`'s loop (the
Python guards the recursion with `if subblock:`). -/
def flattenTree : Tree → List Tok
  | .node stmt sub =>
    flatten_stmt stmt ++ (if sub.isEmpty then [] else flatten_block sub)

/-- `flatten_block(block)`: yield the tokens composing a block. -/
def flatten_block : List Tree → List Tok
  | [] => []
  | tr :: rest => flattenTree tr ++ flatten_block rest
end

/-- `strip_ws(tokens)`: drop tokens whose kind is in `WHITESPACE`. -/
def strip_ws (tokens : List Tok) : List Tok :=
  tokens.filter (fun t => !(WHITESPACE.contains t.kind))

/-! ### Flatten algebra -/

theorem flatten_stmt_append (xs ys : List Entry) :
    flatten_stmt (xs ++ ys) = flatten_stmt xs ++ flatten_stmt ys := by
  induction xs with
  | nil => simp [flatten_stmt]
  | cons e es ih => simp [flatten_stmt, ih]

theorem flatten_block_append (xs ys : List Tree) :
    flatten_block (xs ++ ys) = flatten_block xs ++ flatten_block ys := by
  induction xs with
  | nil => simp [flatten_block]
  | cons tr rest ih => simp [flatten_block, ih]

theorem flattenTree_node (stmt : List Entry) (sub : List Tree) :
    flattenTree (.node stmt sub) = flatten_stmt stmt ++ flatten_block sub := by
  by_cases h : sub.isEmpty
  · have : sub = [] := by simpa using h
    simp [flattenTree, this, flatten_block]
  · simp [flattenTree, h]

theorem eq_dropLast_append_getLast {α : Type} {l : List α} {x : α}
    (h : l.getLast? = some x) : l = l.dropLast ++ [x] := by
  cases l with
  | nil => simp at h
  | cons a as =>
    have hne : a :: as ≠ [] := by simp
    rw [List.getLast?_eq_getLast _ hne, Option.some_inj] at h
    rw [← h]
    exact (List.dropLast_append_getLast hne).symm

/-! ### C10: no INDENT/DEDENT/end-marker tokens inside statements -/

/-- A token that is not one of the structural markers consumed by
the builder as tree structure. -/
def nonMarker (t : Tok) : Prop :=
  t.kind ≠ INDENT ∧ t.kind ≠ DEDENT ∧ t.kind ≠ ENDMARKER

/-- The tokens currently stored in one saved frame. -/
def frameToks : Frame → List Tok
  | .blockF done sav => flatten_block done ++ flatten_stmt sav
  | .stmtF outer _ => flatten_stmt outer

/-- All tokens currently stored in the builder state. -/
def stateToks (s : PState) : List Tok :=
  (s.scopes.map frameToks).flatten ++ flatten_block s.scope ++ flatten_stmt s.stmt

/-- The tokens stored in a step result. -/
def resultToks : StepRes → List Tok
  | .cont s' => stateToks s'
  | .done b => flatten_block b

theorem DEDENT_ne_ENDMARKER : DEDENT ≠ ENDMARKER := by decide

theorem ENDMARKER_ne_DEDENT : ENDMARKER ≠ DEDENT := by decide

theorem INDENT_ne_DEDENT : INDENT ≠ DEDENT := by decide

theorem INDENT_ne_ENDMARKER : INDENT ≠ ENDMARKER := by decide

theorem NEWLINE_ne_DEDENT : NEWLINE ≠ DEDENT := by decide

theorem NEWLINE_ne_ENDMARKER : NEWLINE ≠ ENDMARKER := by decide

theorem NEWLINE_ne_INDENT : NEWLINE ≠ INDENT := by decide

theorem NEWLINE_ne_OP : NEWLINE ≠ OP := by decide

/-- Every token a `parse_block` step stores was already stored, or
is the token just processed — and the processed token is stored only
when it is none of INDENT, DEDENT, ENDMARKER. -/
theorem pstep_resultToks {s : PState} {t : Tok} {r : StepRes}
    (hstep : pstep s t = .ok r) :
    ∀ u ∈ resultToks r, u ∈ stateToks s ∨ (u = t ∧ nonMarker t) := by
  obtain ⟨scopes, parens, indents, scope, stmt⟩ := s
  by_cases hde : t.kind = DEDENT
  · by_cases hw : dedentWidth t ∈ indents
    · cases scopes with
      | nil => simp [pstep, hde, hw, DEDENT_ne_ENDMARKER, ENDMARKER_ne_DEDENT, INDENT_ne_DEDENT, INDENT_ne_ENDMARKER, NEWLINE_ne_DEDENT, NEWLINE_ne_ENDMARKER, NEWLINE_ne_INDENT, NEWLINE_ne_OP] at hstep
      | cons f rest =>
        cases f with
        | stmtF outer meta => simp [pstep, hde, hw, DEDENT_ne_ENDMARKER, ENDMARKER_ne_DEDENT, INDENT_ne_DEDENT, INDENT_ne_ENDMARKER, NEWLINE_ne_DEDENT, NEWLINE_ne_ENDMARKER, NEWLINE_ne_INDENT, NEWLINE_ne_OP] at hstep
        | blockF done sav =>
          simp [pstep, hde, hw, DEDENT_ne_ENDMARKER, ENDMARKER_ne_DEDENT, INDENT_ne_DEDENT, INDENT_ne_ENDMARKER, NEWLINE_ne_DEDENT, NEWLINE_ne_ENDMARKER, NEWLINE_ne_INDENT, NEWLINE_ne_OP] at hstep
          subst hstep
          intro u hu
          left
          simp only [resultToks, stateToks, frameToks, List.map_cons,
            List.flatten_cons, List.map_nil, List.flatten_nil,
            flatten_stmt_append, flatten_block_append, flattenTree_node,
            flatten_stmt, flatten_block, flattenEntry, List.append_nil,
            List.nil_append, List.append_assoc, List.mem_append,
            List.not_mem_nil, or_false, false_or] at hu ⊢
          rcases hu with hu | hu | hu
          · tauto
          · tauto
          · split at hu
            · tauto
            · simp only [flatten_block_append, flatten_block, flattenTree_node,
                flatten_stmt, List.append_nil, List.nil_append,
                List.mem_append, List.not_mem_nil, or_false] at hu
              tauto
    · simp [pstep, hde, hw, DEDENT_ne_ENDMARKER, ENDMARKER_ne_DEDENT, INDENT_ne_DEDENT, INDENT_ne_ENDMARKER, NEWLINE_ne_DEDENT, NEWLINE_ne_ENDMARKER, NEWLINE_ne_INDENT, NEWLINE_ne_OP] at hstep
  · by_cases hen : t.kind = ENDMARKER
    · cases hpr : parens with
      | cons p ps => simp [pstep, hde, hen, hpr, DEDENT_ne_ENDMARKER, ENDMARKER_ne_DEDENT, INDENT_ne_DEDENT, INDENT_ne_ENDMARKER, NEWLINE_ne_DEDENT, NEWLINE_ne_ENDMARKER, NEWLINE_ne_INDENT, NEWLINE_ne_OP] at hstep
      | nil =>
        cases scopes with
        | cons f rest => simp [pstep, hde, hen, hpr, DEDENT_ne_ENDMARKER, ENDMARKER_ne_DEDENT, INDENT_ne_DEDENT, INDENT_ne_ENDMARKER, NEWLINE_ne_DEDENT, NEWLINE_ne_ENDMARKER, NEWLINE_ne_INDENT, NEWLINE_ne_OP] at hstep
        | nil =>
          simp [pstep, hde, hen, hpr, DEDENT_ne_ENDMARKER, ENDMARKER_ne_DEDENT, INDENT_ne_DEDENT, INDENT_ne_ENDMARKER, NEWLINE_ne_DEDENT, NEWLINE_ne_ENDMARKER, NEWLINE_ne_INDENT, NEWLINE_ne_OP] at hstep
          subst hstep
          intro u hu
          left
          simp only [resultToks, stateToks, frameToks, List.map_nil,
            List.flatten_nil, List.nil_append, List.mem_append] at hu ⊢
          split at hu
          · tauto
          · simp only [flatten_block_append, flatten_block, flattenTree_node,
              flatten_stmt, List.append_nil, List.nil_append, List.mem_append,
              List.not_mem_nil, or_false] at hu
            tauto
    · by_cases hin : t.kind = INDENT
      · cases hlast : scope.getLast? with
        | none => simp [pstep, hde, hen, hin, hlast, DEDENT_ne_ENDMARKER, ENDMARKER_ne_DEDENT, INDENT_ne_DEDENT, INDENT_ne_ENDMARKER, NEWLINE_ne_DEDENT, NEWLINE_ne_ENDMARKER, NEWLINE_ne_INDENT, NEWLINE_ne_OP] at hstep
        | some tr =>
          obtain ⟨sav, kids⟩ := tr
          obtain ⟨pre, rfl⟩ : ∃ pre, scope = pre ++ [Tree.node sav kids] :=
            ⟨scope.dropLast, eq_dropLast_append_getLast hlast⟩
          simp [pstep, hde, hen, hin, hlast, DEDENT_ne_ENDMARKER, ENDMARKER_ne_DEDENT, INDENT_ne_DEDENT, INDENT_ne_ENDMARKER, NEWLINE_ne_DEDENT, NEWLINE_ne_ENDMARKER, NEWLINE_ne_INDENT, NEWLINE_ne_OP] at hstep
          subst hstep
          intro u hu
          left
          simp only [resultToks, stateToks, frameToks, List.map_cons,
            List.flatten_cons, List.mem_append, List.append_assoc,
            List.dropLast_concat, flatten_block_append, flatten_block,
            flattenTree_node, List.append_nil, List.nil_append,
            List.not_mem_nil, or_false, false_or] at hu ⊢
          tauto
      · -- not DEDENT, ENDMARKER or INDENT: the token is stored
        have hnm : nonMarker t := ⟨hin, hde, hen⟩
        by_cases hoc : (t.kind == OP && isOpenParen t.val) = true
        · simp [pstep, hde, hen, hin, hoc, DEDENT_ne_ENDMARKER, ENDMARKER_ne_DEDENT, INDENT_ne_DEDENT, INDENT_ne_ENDMARKER, NEWLINE_ne_DEDENT, NEWLINE_ne_ENDMARKER, NEWLINE_ne_INDENT, NEWLINE_ne_OP] at hstep
          subst hstep
          intro u hu
          simp only [resultToks, stateToks, frameToks, List.map_cons,
            List.flatten_cons, List.mem_append, List.append_assoc,
            flatten_stmt, flattenEntry, List.append_nil, List.not_mem_nil,
            List.mem_singleton, or_false, false_or] at hu ⊢
          tauto
        · by_cases hcc : (t.kind == OP && isCloseParen t.val) = true
          · cases hpr : parens with
            | nil => simp [pstep, hde, hen, hin, hoc, hcc, hpr, DEDENT_ne_ENDMARKER, ENDMARKER_ne_DEDENT, INDENT_ne_DEDENT, INDENT_ne_ENDMARKER, NEWLINE_ne_DEDENT, NEWLINE_ne_ENDMARKER, NEWLINE_ne_INDENT, NEWLINE_ne_OP] at hstep
            | cons p ps =>
              by_cases hpm : p = closeParenOf t.val
              · cases hsc : scopes with
                | nil => simp [pstep, hde, hen, hin, hoc, hcc, hpr, hpm, hsc, DEDENT_ne_ENDMARKER, ENDMARKER_ne_DEDENT, INDENT_ne_DEDENT, INDENT_ne_ENDMARKER, NEWLINE_ne_DEDENT, NEWLINE_ne_ENDMARKER, NEWLINE_ne_INDENT, NEWLINE_ne_OP] at hstep
                | cons f rest =>
                  cases f with
                  | blockF done sav =>
                    simp [pstep, hde, hen, hin, hoc, hcc, hpr, hpm, hsc, DEDENT_ne_ENDMARKER, ENDMARKER_ne_DEDENT, INDENT_ne_DEDENT, INDENT_ne_ENDMARKER, NEWLINE_ne_DEDENT, NEWLINE_ne_ENDMARKER, NEWLINE_ne_INDENT, NEWLINE_ne_OP] at hstep
                  | stmtF outer meta =>
                    simp [pstep, hde, hen, hin, hoc, hcc, hpr, hpm, hsc, DEDENT_ne_ENDMARKER, ENDMARKER_ne_DEDENT, INDENT_ne_DEDENT, INDENT_ne_ENDMARKER, NEWLINE_ne_DEDENT, NEWLINE_ne_ENDMARKER, NEWLINE_ne_INDENT, NEWLINE_ne_OP] at hstep
                    subst hstep
                    intro u hu
                    simp only [resultToks, stateToks, frameToks, List.map_cons,
                      List.flatten_cons, List.mem_append, List.append_assoc,
                      flatten_stmt_append, flatten_stmt, flattenEntry,
                      List.append_nil, List.not_mem_nil, List.mem_singleton,
                      or_false, false_or] at hu ⊢
                    tauto
              · simp [pstep, hde, hen, hin, hoc, hcc, hpr, hpm, DEDENT_ne_ENDMARKER, ENDMARKER_ne_DEDENT, INDENT_ne_DEDENT, INDENT_ne_ENDMARKER, NEWLINE_ne_DEDENT, NEWLINE_ne_ENDMARKER, NEWLINE_ne_INDENT, NEWLINE_ne_OP] at hstep
          · by_cases hnl : t.kind = NEWLINE
            · simp [pstep, hde, hen, hin, hoc, hcc, hnl, DEDENT_ne_ENDMARKER, ENDMARKER_ne_DEDENT, INDENT_ne_DEDENT, INDENT_ne_ENDMARKER, NEWLINE_ne_DEDENT, NEWLINE_ne_ENDMARKER, NEWLINE_ne_INDENT, NEWLINE_ne_OP] at hstep
              subst hstep
              intro u hu
              simp only [resultToks, stateToks, frameToks, List.mem_append,
                flatten_block_append, flatten_block, flattenTree_node,
                flatten_stmt_append, flatten_stmt, flattenEntry,
                List.append_nil, List.nil_append, List.append_assoc,
                List.not_mem_nil, List.mem_singleton, or_false,
                false_or] at hu ⊢
              tauto
            · simp [pstep, hde, hen, hin, hoc, hcc, hnl, DEDENT_ne_ENDMARKER, ENDMARKER_ne_DEDENT, INDENT_ne_DEDENT, INDENT_ne_ENDMARKER, NEWLINE_ne_DEDENT, NEWLINE_ne_ENDMARKER, NEWLINE_ne_INDENT, NEWLINE_ne_OP] at hstep
              subst hstep
              intro u hu
              simp only [resultToks, stateToks, frameToks, List.mem_append,
                flatten_stmt_append, flatten_stmt, flattenEntry,
                List.append_nil, List.append_assoc, List.not_mem_nil,
                List.mem_singleton, or_false, false_or] at hu ⊢
              tauto

theorem parseLoop_nonMarker (ts : List Tok) :
    ∀ s b, (∀ u ∈ stateToks s, nonMarker u) → parseLoop s ts = .ok b →
      ∀ u ∈ flatten_block b, nonMarker u := by
  induction ts with
  | nil => intro s b _ h; simp [parseLoop] at h
  | cons t ts ih =>
    intro s b hok h
    rw [parseLoop] at h
    cases hstep : pstep s t with
    | error e => rw [hstep] at h; exact absurd h (by simp)
    | ok r =>
      rw [hstep] at h
      cases r with
      | done b' =>
        have hb : b' = b := by simpa using h
        subst hb
        intro u hu
        rcases pstep_resultToks hstep u hu with h1 | h2
        · exact hok u h1
        · obtain ⟨rfl, hn⟩ := h2; exact hn
      | cont s' =>
        refine ih s' b ?_ h
        intro u hu
        rcases pstep_resultToks hstep u hu with h1 | h2
        · exact hok u h1
        · obtain ⟨rfl, hn⟩ := h2; exact hn

/-- **C10.** For every token stream on which `parse_block` succeeds,
flattening the returned block yields no INDENT, DEDENT or end-marker
tokens: those markers are consumed as tree structure by the builder
and never stored inside any statement. -/
theorem C10_no_markers (toks : List Tok) (b : List Tree)
    (h : parse_block toks = .ok b) :
    ∀ t ∈ flatten_block b,
      t.kind ≠ INDENT ∧ t.kind ≠ DEDENT ∧ t.kind ≠ ENDMARKER := by
  refine parseLoop_nonMarker toks _ b ?_ h
  intro u hu
  simp [stateToks, flatten_block, flatten_stmt] at hu

theorem C10_no_markers_witness :
    parse_block
        [⟨NAME, ['a'], (1, 0), (1, 1), "a\n".toList⟩,
         ⟨NEWLINE, ['\n'], (1, 1), (1, 2), "a\n".toList⟩,
         ⟨ENDMARKER, [], (2, 0), (2, 0), []⟩] =
      .ok [Tree.node [.tok ⟨NAME, ['a'], (1, 0), (1, 1), "a\n".toList⟩,
                      .tok ⟨NEWLINE, ['\n'], (1, 1), (1, 2), "a\n".toList⟩] []] ∧
    ∀ t ∈ flatten_block
        [Tree.node [.tok ⟨NAME, ['a'], (1, 0), (1, 1), "a\n".toList⟩,
                    .tok ⟨NEWLINE, ['\n'], (1, 1), (1, 2), "a\n".toList⟩] []],
      t.kind ≠ INDENT ∧ t.kind ≠ DEDENT ∧ t.kind ≠ ENDMARKER :=
  ⟨rfl,
    C10_no_markers
      [⟨NAME, ['a'], (1, 0), (1, 1), "a\n".toList⟩,
       ⟨NEWLINE, ['\n'], (1, 1), (1, 2), "a\n".toList⟩,
       ⟨ENDMARKER, [], (2, 0), (2, 0), []⟩]
      [Tree.node [.tok ⟨NAME, ['a'], (1, 0), (1, 1), "a\n".toList⟩,
                  .tok ⟨NEWLINE, ['\n'], (1, 1), (1, 2), "a\n".toList⟩] []]
      rfl⟩

/-! ### C1: flatten after parse preserves the non-whitespace tokens

The claim quantifies over well-formed token streams.  Well-formedness
is modelled from the spec's scanner contract (sections 3 and 4.2):
brackets nest properly, the logical-line-end / indent / dedent
markers occur only outside brackets (inside brackets the scanner
emits the blank-line marker NL instead), and the end marker
terminates the stream. -/

/-- Well-formedness of the remaining stream given the currently open
brackets. -/
def wfFrom : List Char → List Tok → Bool
  | _, [] => true
  | ps, t :: ts =>
    if t.kind == OP && isOpenParen t.val then
      wfFrom (pstep.headOpenChar t.val :: ps) ts
    else if t.kind == OP && isCloseParen t.val then
      match ps with
      | [] => false
      | p :: ps' => p == closeParenOf t.val && wfFrom ps' ts
    else if t.kind == NEWLINE || t.kind == INDENT || t.kind == DEDENT then
      ps.isEmpty && wfFrom ps ts
    else if t.kind == ENDMARKER then
      ps.isEmpty && ts.isEmpty
    else wfFrom ps ts

/-- A well-formed token stream: brackets balanced from the start,
structural markers only at bracket depth zero, the end marker last. -/
def WellFormed (toks : List Tok) : Bool := wfFrom [] toks

/-- The tokens `parse_block` stores: everything before the first end
marker except the INDENT and DEDENT markers. -/
def storedToks : List Tok → List Tok
  | [] => []
  | t :: ts =>
    if t.kind == ENDMARKER then []
    else if t.kind == INDENT || t.kind == DEDENT then storedToks ts
    else t :: storedToks ts

def Frame.isStmt : Frame → Bool
  | .stmtF _ _ => true
  | .blockF _ _ => false

/-- Flatten of the bracket frames (innermost first) around the
current statement buffer. -/
def flatS : List Frame → List Tok → List Tok
  | [], k => k
  | .stmtF outer _ :: rest, k => flatS rest (flatten_stmt outer ++ k)
  | .blockF _ _ :: rest, k => flatS rest k

/-- Flatten of the indentation frames (innermost first) around the
current block. -/
def flatB : List Frame → List Tok → List Tok
  | [], k => k
  | .blockF done sav :: rest, k =>
    flatB rest (flatten_block done ++ flatten_stmt sav ++ k)
  | .stmtF _ _ :: rest, k => flatB rest k

theorem flatS_append_right (sfs : List Frame) (a b : List Tok) :
    flatS sfs (a ++ b) = flatS sfs a ++ b := by
  induction sfs generalizing a with
  | nil => simp [flatS]
  | cons f rest ih =>
    cases f with
    | stmtF outer m => simp only [flatS, ← List.append_assoc, ih]
    | blockF done sav => simp only [flatS, ih]

theorem flatB_append_right (bfs : List Frame) (a b : List Tok) :
    flatB bfs (a ++ b) = flatB bfs a ++ b := by
  induction bfs generalizing a with
  | nil => simp [flatB]
  | cons f rest ih =>
    cases f with
    | blockF done sav => simp only [flatB, ← List.append_assoc, ih]
    | stmtF outer m => simp only [flatB, ih]

/-- Closing the pending statement into the current block. -/
theorem flatten_block_pending (scope : List Tree) (stmt : List Entry) :
    flatten_block (if stmt.isEmpty then scope else scope ++ [.node stmt []]) =
      flatten_block scope ++ flatten_stmt stmt := by
  by_cases h : stmt.isEmpty
  · have : stmt = [] := by simpa using h
    simp [h, this, flatten_stmt]
  · simp [h, flatten_block_append, flatten_block, flattenTree_node,
      flatten_stmt]

theorem DEDENT_facts : DEDENT ≠ OP ∧ DEDENT ≠ NEWLINE ∧ DEDENT ≠ INDENT := by decide

/-- The builder invariant: the mixed `scopes` stack is a run of
bracket frames (as many as there are open brackets) on top of a run
of indentation frames, and the tokens linearized from the state are
exactly the stored prefix of the input. -/
theorem parseLoop_flatten (ts : List Tok) :
    ∀ s b sfs bfs,
      s.scopes = sfs ++ bfs →
      (∀ f ∈ sfs, f.isStmt = true) →
      (∀ f ∈ bfs, f.isStmt = false) →
      sfs.length = s.parens.length →
      wfFrom s.parens ts = true →
      parseLoop s ts = .ok b →
      flatten_block b =
        flatB bfs (flatten_block s.scope ++ flatS sfs (flatten_stmt s.stmt))
          ++ storedToks ts := by
  induction ts with
  | nil =>
    intro s b sfs bfs _ _ _ _ _ h
    simp [parseLoop] at h
  | cons t ts ih =>
    intro s b sfs bfs hsplit hsfs hbfs hlen hwf h
    obtain ⟨scopes, parens, indents, scope, stmt⟩ := s
    simp only at hsplit hlen
    subst hsplit
    rw [parseLoop] at h
    by_cases hde : t.kind = DEDENT
    · -- wf: DEDENT only at depth 0, so parens = [] and sfs = []
      simp [wfFrom, hde, DEDENT, NEWLINE, INDENT, ENDMARKER, OP,
        isOpenParen, isCloseParen] at hwf
      obtain ⟨hpr, hwf⟩ := hwf
      have hsfs0 : sfs = [] := by
        have := hlen
        rw [hpr] at this
        exact List.length_eq_zero.mp (by simpa using this)
      subst hsfs0
      by_cases hw : dedentWidth t ∈ indents
      · cases bfs with
        | nil =>
          simp [pstep, hde, hw, hpr, DEDENT_ne_ENDMARKER] at h
        | cons f rest =>
          cases hf : f with
          | stmtF outer meta =>
            have hbad := hbfs f (List.mem_cons_self ..)
            rw [hf] at hbad
            simp [Frame.isStmt] at hbad
          | blockF done sav =>
            subst hf
            simp [pstep, hde, hw, hpr, DEDENT_ne_ENDMARKER] at h
            have hih := ih _ b [] rest rfl (by simp)
              (fun g hg => hbfs g (List.mem_cons_of_mem _ hg))
              (by simp [hpr]) (by simpa [hpr] using hwf) h
            rw [hih]
            simp [flatB, flatS, flatten_stmt, flatten_block_append,
              flatten_block, flattenTree_node, flatten_block_pending,
              storedToks, hde, DEDENT, ENDMARKER, INDENT,
              List.append_assoc]
      · simp [pstep, hde, hw, DEDENT_ne_ENDMARKER] at h
    · by_cases hen : t.kind = ENDMARKER
      · -- wf: the end marker is last and at depth 0
        simp [wfFrom, hen, DEDENT, NEWLINE, INDENT, ENDMARKER, OP,
          isOpenParen, isCloseParen] at hwf
        obtain ⟨hpr, hts⟩ := hwf
        have hsfs0 : sfs = [] := by
          have := hlen
          rw [hpr] at this
          exact List.length_eq_zero.mp (by simpa using this)
        subst hsfs0
        cases bfs with
        | cons f rest =>
          simp [pstep, hde, hen, hpr, ENDMARKER_ne_DEDENT] at h
        | nil =>
          simp [pstep, hde, hen, hpr, ENDMARKER_ne_DEDENT] at h
          subst h
          simp [flatB, flatS, flatten_block_pending, storedToks, hen,
            ENDMARKER]
      · by_cases hin : t.kind = INDENT
        · simp [wfFrom, hin, DEDENT, NEWLINE, INDENT, ENDMARKER, OP,
            isOpenParen, isCloseParen] at hwf
          obtain ⟨hpr, hwf⟩ := hwf
          have hsfs0 : sfs = [] := by
            have := hlen
            rw [hpr] at this
            exact List.length_eq_zero.mp (by simpa using this)
          subst hsfs0
          cases hlast : scope.getLast? with
          | none =>
            simp [pstep, hde, hen, hin, hlast, INDENT_ne_DEDENT,
              INDENT_ne_ENDMARKER] at h
          | some tr =>
            obtain ⟨sav, kids⟩ := tr
            obtain ⟨pre, rfl⟩ : ∃ pre, scope = pre ++ [Tree.node sav kids] :=
              ⟨scope.dropLast, eq_dropLast_append_getLast hlast⟩
            simp [pstep, hde, hen, hin, hlast, INDENT_ne_DEDENT,
              INDENT_ne_ENDMARKER] at h
            have hih := ih _ b []
              (Frame.blockF pre sav :: bfs)
              rfl (by simp)
              (by
                intro g hg
                rcases List.mem_cons.mp hg with hg | hg
                · simp [hg, Frame.isStmt]
                · exact hbfs g hg)
              (by simp [hpr]) (by simpa [hpr] using hwf) h
            rw [hih]
            simp [flatB, flatS, List.dropLast_concat, flatten_block_append,
              flatten_block, flattenTree_node, storedToks, hin, INDENT,
              ENDMARKER, DEDENT, List.append_assoc]
        · by_cases hoc : (t.kind == OP && isOpenParen t.val) = true
          · -- open bracket: push a statement frame
            simp only [wfFrom, hoc, if_pos] at hwf
            simp [pstep, hde, hen, hin, hoc] at h
            have hih := ih _ b (Frame.stmtF stmt t :: sfs) bfs rfl
              (by
                intro g hg
                rcases List.mem_cons.mp hg with hg | hg
                · simp [hg, Frame.isStmt]
                · exact hsfs g hg)
              hbfs (by simpa using hlen) hwf h
            rw [hih]
            have hnm : ¬(t.kind = ENDMARKER) ∧
                ¬(t.kind = INDENT ∨ t.kind = DEDENT) := by tauto
            simp [flatS, flatten_stmt, flattenEntry, flatS_append_right,
              flatB_append_right, storedToks, hnm.1, hnm.2, hde, hen, hin,
              List.append_assoc]
          · by_cases hcc : (t.kind == OP && isCloseParen t.val) = true
            · -- close bracket: the top frame is a statement frame
              cases hpr : parens with
              | nil =>
                rw [hpr] at hwf
                simp [wfFrom, hoc, hcc] at hwf
              | cons p ps =>
                rw [hpr] at hwf
                simp [wfFrom, hoc, hcc] at hwf
                obtain ⟨hpm, hwf'⟩ := hwf
                cases sfs with
                | nil => simp [hpr] at hlen
                | cons f sfs' =>
                  cases hf : f with
                  | blockF done sav =>
                    have hbad := hsfs f (List.mem_cons_self ..)
                    rw [hf] at hbad
                    simp [Frame.isStmt] at hbad
                  | stmtF outer meta =>
                    subst hf
                    simp [pstep, hde, hen, hin, hoc, hcc, hpr, hpm] at h
                    have hih := ih _ b sfs' bfs rfl
                      (fun g hg => hsfs g (List.mem_cons_of_mem _ hg))
                      hbfs (by simpa [hpr] using hlen) hwf' h
                    rw [hih]
                    have hnm : ¬(t.kind = ENDMARKER) ∧
                        ¬(t.kind = INDENT ∨ t.kind = DEDENT) := by tauto
                    simp [flatS, flatten_stmt_append, flatten_stmt,
                      flattenEntry, flatS_append_right, flatB_append_right,
                      storedToks, hnm.1, hnm.2, hde, hen, hin,
                      List.append_assoc]
            · by_cases hnl : t.kind = NEWLINE
              · simp [wfFrom, hnl, DEDENT, NEWLINE, INDENT, ENDMARKER, OP,
                  isOpenParen, isCloseParen] at hwf
                obtain ⟨hpr, hwf⟩ := hwf
                have hsfs0 : sfs = [] := by
                  have := hlen
                  rw [hpr] at this
                  exact List.length_eq_zero.mp (by simpa using this)
                subst hsfs0
                simp [pstep, hde, hen, hin, hoc, hcc, hnl, NEWLINE_ne_DEDENT,
                  NEWLINE_ne_ENDMARKER, NEWLINE_ne_INDENT, NEWLINE_ne_OP] at h
                have hih := ih _ b [] bfs rfl (by simp) hbfs
                  (by simp [hpr]) (by simpa [hpr] using hwf) h
                rw [hih]
                simp [flatB, flatS, flatten_block_append, flatten_block,
                  flattenTree_node, flatten_stmt_append, flatten_stmt,
                  flattenEntry, flatB_append_right, storedToks, hde, hen, hin,
                  List.append_assoc]
              · -- any other token
                simp [wfFrom, hoc, hcc, hnl, hin, hde, hen] at hwf
                simp [pstep, hde, hen, hin, hoc, hcc, hnl] at h
                have hih := ih _ b sfs bfs rfl hsfs hbfs (by simpa using hlen)
                  hwf h
                rw [hih]
                have hnm : ¬(t.kind = ENDMARKER) ∧
                    ¬(t.kind = INDENT ∨ t.kind = DEDENT) := by tauto
                simp [flatten_stmt_append, flatten_stmt, flattenEntry,
                  flatS_append_right, flatB_append_right, storedToks,
                  hnm.1, hnm.2, hde, hen, hin, List.append_assoc]

theorem OP_facts : OP ≠ ENDMARKER ∧ OP ≠ INDENT ∧ OP ≠ DEDENT := by decide

theorem strip_ws_cons (t : Tok) (ts : List Tok) :
    strip_ws (t :: ts) =
      if WHITESPACE.contains t.kind then strip_ws ts else t :: strip_ws ts := by
  by_cases h : WHITESPACE.contains t.kind <;> simp [strip_ws, List.filter_cons, h]

theorem ws_contains : NEWLINE ∈ WHITESPACE ∧ INDENT ∈ WHITESPACE ∧
    DEDENT ∈ WHITESPACE ∧ ENDMARKER ∈ WHITESPACE := by decide

/-- Dropping the INDENT/DEDENT markers and cutting at the end marker
does not change the whitespace-stripped stream. -/
theorem strip_storedToks (toks : List Tok) :
    ∀ ps, wfFrom ps toks = true →
      strip_ws (storedToks toks) = strip_ws toks := by
  induction toks with
  | nil => intro ps _; rfl
  | cons t ts ih =>
    intro ps hwf
    by_cases hoc : (t.kind == OP && isOpenParen t.val) = true
    · have hk : t.kind = OP := by
        have := ((Bool.and_eq_true _ _).mp hoc).1
        exact beq_iff_eq.mp this
      simp only [wfFrom, hoc, if_pos] at hwf
      have hih := ih _ hwf
      rw [show storedToks (t :: ts) = t :: storedToks ts by
        simp [storedToks, hk, OP_facts.1, OP_facts.2.1, OP_facts.2.2]]
      by_cases hcont : WHITESPACE.contains t.kind <;>
        simp [strip_ws_cons, hcont, hih]
    · by_cases hcc : (t.kind == OP && isCloseParen t.val) = true
      · have hk : t.kind = OP := by
          have := ((Bool.and_eq_true _ _).mp hcc).1
          exact beq_iff_eq.mp this
        cases hps : ps with
        | nil => rw [hps] at hwf; simp [wfFrom, hoc, hcc] at hwf
        | cons p ps' =>
          rw [hps] at hwf
          simp [wfFrom, hoc, hcc] at hwf
          have hih := ih _ hwf.2
          rw [show storedToks (t :: ts) = t :: storedToks ts by
            simp [storedToks, hk, OP_facts.1, OP_facts.2.1, OP_facts.2.2]]
          by_cases hcont : WHITESPACE.contains t.kind <;>
            simp [strip_ws_cons, hcont, hih]
      · by_cases hmk : (t.kind == NEWLINE || t.kind == INDENT ||
            t.kind == DEDENT) = true
        · simp only [wfFrom, hoc, hcc, hmk, Bool.false_eq_true, if_false,
            if_pos, Bool.and_eq_true] at hwf
          have hih := ih _ hwf.2
          rcases (by simpa [or_assoc] using hmk :
              t.kind = NEWLINE ∨ t.kind = INDENT ∨ t.kind = DEDENT)
            with hk | hk | hk
          · rw [show storedToks (t :: ts) = t :: storedToks ts by
              simp [storedToks, hk, NEWLINE_ne_ENDMARKER, NEWLINE_ne_INDENT,
                NEWLINE_ne_DEDENT]]
            simp [strip_ws_cons, hk, ws_contains.1, hih]
          · rw [show storedToks (t :: ts) = storedToks ts by
              simp [storedToks, hk, INDENT_ne_ENDMARKER]]
            simp [strip_ws_cons, hk, ws_contains.2.1, hih]
          · rw [show storedToks (t :: ts) = storedToks ts by
              simp [storedToks, hk, DEDENT_ne_ENDMARKER]]
            simp [strip_ws_cons, hk, ws_contains.2.2.1, hih]
        · by_cases hem : (t.kind == ENDMARKER) = true
          · have hk : t.kind = ENDMARKER := beq_iff_eq.mp hem
            simp only [wfFrom, hoc, hcc, hmk, hem, Bool.false_eq_true,
              if_false, if_pos, Bool.and_eq_true] at hwf
            have hts : ts = [] := by simpa using hwf.2
            subst hts
            rw [show storedToks [t] = [] by simp [storedToks, hk]]
            simp [strip_ws_cons, hk, ws_contains.2.2.2, strip_ws]
          · simp only [wfFrom, hoc, hcc, hmk, hem, Bool.false_eq_true,
              if_false] at hwf
            have hih := ih _ hwf
            have hks : t.kind ≠ ENDMARKER ∧ t.kind ≠ INDENT ∧
                t.kind ≠ DEDENT := by
              refine ⟨fun hk => hem (by simp [hk]), fun hk => hmk ?_,
                fun hk => hmk ?_⟩ <;> simp [hk]
            rw [show storedToks (t :: ts) = t :: storedToks ts by
              simp [storedToks, hks.1, hks.2.1, hks.2.2]]
            by_cases hcont : WHITESPACE.contains t.kind <;>
              simp [strip_ws_cons, hcont, hih]

/-- **C1.** For every well-formed token stream on which `parse_block`
succeeds, `strip_ws` applied to `flatten_block(parse_block(tokens))`
yields exactly the same tokens, in the same order, as `strip_ws`
applied to the original token stream. -/
theorem C1_flatten_roundtrip (toks : List Tok) (b : List Tree)
    (hwf : WellFormed toks = true) (h : parse_block toks = .ok b) :
    strip_ws (flatten_block b) = strip_ws toks := by
  have hmain := parseLoop_flatten toks ⟨[], [], [0], [], []⟩ b [] []
    rfl (by simp) (by simp) rfl hwf h
  simp only [flatB, flatS, flatten_block, flatten_stmt,
    List.nil_append] at hmain
  rw [hmain]
  exact strip_storedToks toks [] hwf

/-- The token stream of `"if foo:\n    bar\n"` (as produced by the
scanner), used as the concrete instance for C1. -/
def c1Toks : List Tok :=
  [⟨NAME, "if".toList, (1, 0), (1, 2), "if foo:\n".toList⟩,
   ⟨NAME, "foo".toList, (1, 3), (1, 6), "if foo:\n".toList⟩,
   ⟨OP, [':'], (1, 6), (1, 7), "if foo:\n".toList⟩,
   ⟨NEWLINE, ['\n'], (1, 7), (1, 8), "if foo:\n".toList⟩,
   ⟨INDENT, "    ".toList, (2, 0), (2, 4), "    bar\n".toList⟩,
   ⟨NAME, "bar".toList, (2, 4), (2, 7), "    bar\n".toList⟩,
   ⟨NEWLINE, ['\n'], (2, 7), (2, 8), "    bar\n".toList⟩,
   ⟨DEDENT, [], (3, 0), (3, 0), []⟩,
   ⟨ENDMARKER, [], (3, 0), (3, 0), []⟩]

/-- The block tree `parse_block` builds from `c1Toks`. -/
def c1Block : List Tree :=
  [.node [.tok ⟨NAME, "if".toList, (1, 0), (1, 2), "if foo:\n".toList⟩,
          .tok ⟨NAME, "foo".toList, (1, 3), (1, 6), "if foo:\n".toList⟩,
          .tok ⟨OP, [':'], (1, 6), (1, 7), "if foo:\n".toList⟩,
          .tok ⟨NEWLINE, ['\n'], (1, 7), (1, 8), "if foo:\n".toList⟩]
     [.node [.tok ⟨NAME, "bar".toList, (2, 4), (2, 7), "    bar\n".toList⟩,
             .tok ⟨NEWLINE, ['\n'], (2, 7), (2, 8), "    bar\n".toList⟩] []]]

theorem C1_flatten_roundtrip_witness :
    WellFormed c1Toks = true ∧ parse_block c1Toks = .ok c1Block ∧
      strip_ws (flatten_block c1Block) = strip_ws c1Toks :=
  ⟨by decide, rfl, C1_flatten_roundtrip c1Toks c1Block (by decide) rfl⟩

/-! ## `detokenize` (dsl.py lines 288-327) -/

/-- The loop state of `detokenize`: last line/column emitted, the
previous token's source line, and the inferred base indentation. -/
structure DState where
  lr : Nat
  lc : Nat
  last : List Char
  baseindent : Option Nat
  deriving DecidableEq, Repr

/-- `lr,lc,last = 0,0,''` and `baseindent = None`. -/
def dInit : DState := ⟨0, 0, [], none⟩

/-- One iteration of the `detokenize` loop: the characters appended
to `out` while processing the token, and the state afterwards.
Mirrors the source line by line: `lr = lr or sr`; the skipped-lines
block (trailing text of the previous line, then one `'\\\n'`
continuation per skipped line, prefixed by the extra indent); the
start-of-line re-indentation with the `INDENT` skip (`continue`
leaves `lr`/`lc` as mutated but skips the final state update); the
intraline whitespace copy `line[lc:sc]`; and `if val: add(val)`
(appending an empty `val` is the identity). -/
def detokStep (indent : Nat) (s : DState) (t : Tok) : List Char × DState :=
  let (sr, sc) := t.start
  let (er, ec) := t.stop
  let lr0 := if s.lr == 0 then sr else s.lr
  let (e1, lr1, lc1) :=
    if sr > lr0 then
      let (tail, lr') :=
        if s.last.isEmpty then (([] : List Char), lr0)
        else ((if s.last.length > s.lc then s.last.drop s.lc else []), lr0 + 1)
      let cont :=
        if sr > lr' then
          List.replicate indent ' ' ++ (List.replicate (sr - lr') (['\\', '\n'])).flatten
        else []
      (tail ++ cont, lr', 0)
    else (([] : List Char), lr0, s.lc)
  if lc1 == 0 && t.kind == INDENT then
    (e1, { s with lr := lr1, lc := lc1 })
  else
    let (e2, base') :=
      if lc1 == 0 then
        let curindent := expandtabsLen (t.line.take sc)
        let (eIndent, b') :=
          match s.baseindent with
          | none =>
            if !(WHITESPACE.contains t.kind) then (([] : List Char), some curindent)
            else ([], none)
          | some b =>
            ((if curindent ≥ b then List.replicate (curindent - b) ' ' else []), some b)
        let eExtra :=
          if indent ≠ 0 &&
              !(t.kind == DEDENT || t.kind == ENDMARKER ||
                t.kind == NL || t.kind == NEWLINE) then
            List.replicate indent ' '
          else []
        (eIndent ++ eExtra, b')
      else if sc > lc1 then
        ((t.line.drop lc1).take (sc - lc1), s.baseindent)
      else ([], s.baseindent)
    (e1 ++ e2 ++ t.val, ⟨er, ec, t.line, base'⟩)

/-- The `detokenize` loop over a token list, returning the emitted
characters. -/
def detokGo (indent : Nat) : DState → List Tok → List Char
  | _, [] => []
  | s, t :: ts =>
    let (e, s') := detokStep indent s t
    e ++ detokGo indent s' ts

/-- The loop state after processing a token list. -/
def detokState (indent : Nat) : DState → List Tok → DState
  | s, [] => s
  | s, t :: ts => detokState indent (detokStep indent s t).2 ts

/-- `detokenize(tokens, indent=0)`: the input runs through
`flatten_stmt`, so statements containing `SUBEXPR` entries are
accepted. -/
def detokenize (tokens : List Entry) (indent : Nat) : List Char :=
  detokGo indent dInit (flatten_stmt tokens)

/-! ### C2: the detokenizer reproduces the scanned text

The claim quantifies over texts and their tokenizations.  The
scanner is external (spec section 4.2), so its output contract is
modelled from the spec as the relation `wfTokens text toks` below:
tokens appear in position order starting on line 1; a token's text is
the exact slice of the source between its start and end and its
`line` field is the physical line (for a multi-line token: the
concatenation of the physical lines) it spans; the first token of a
line is preceded only by space indentation; INDENT markers sit at
column 0 of their line and carry the indentation as text;
end-of-file DEDENT/end markers live, empty, at column 0 of the line
past the input; physical lines not reached by any token are
backslash-continuation lines `"\\\n"`; and a multi-line token or an
INDENT is followed by a token on the line where it ended. -/

/-- The `r`-th physical line (1-based). -/
def lineAt (lines : List (List Char)) (r : Nat) : List Char :=
  (lines.getD (r - 1) [])

/-- The text from line `r`, column `c` to the end of the input. -/
def textSuffix (lines : List (List Char)) (r c : Nat) : List Char :=
  (lineAt lines r).drop c ++ (lines.drop r).flatten

/-- The scanner-contract relation, threading the current position
`(r, c)`; `needSame` forces the next token to start on line `r`
(after an INDENT or a multi-line token). -/
def wfGo (lines : List (List Char)) : Nat → Nat → Bool → List Tok → Bool
  | r, c, _, [] => textSuffix lines r c == []
  | r, c, needSame, t :: ts =>
    let n := lines.length
    let (sr, sc) := t.start
    let (er, ec) := t.stop
    let ok1 : Bool :=
      if sr == r then true
      else
        (!needSame) && decide (1 ≤ r) && decide (r ≤ n) && decide (r < sr)
          && decide (c ≤ (lineAt lines r).length)
          && ((List.range' (r + 1) (sr - r - 1)).all
                (fun i => lineAt lines i == ['\\', '\n']))
          && (!(t.kind == INDENT) || sr == r + 1)
    let cc := if sr == r then c else 0
    ok1 &&
      (if n < sr then
        (t.kind == DEDENT || t.kind == ENDMARKER) && sr == n + 1 && sc == 0
          && cc == 0 && er == sr && ec == 0 && t.val.isEmpty && t.line.isEmpty
          && wfGo lines sr 0 false ts
      else
        decide (cc ≤ sc) && decide (sc ≤ (lineAt lines sr).length)
          && (!(cc == 0) || ((lineAt lines sr).take sc).all (· == ' '))
          && (if t.kind == INDENT then
                sc == 0 && cc == 0 && er == sr
                  && decide (ec ≤ (lineAt lines sr).length)
                  && t.val == (lineAt lines sr).take ec
                  && t.line == lineAt lines sr
                  && wfGo lines sr 0 true ts
              else if er == sr then
                decide (sc ≤ ec) && decide (ec ≤ (lineAt lines sr).length)
                  && t.line == lineAt lines sr
                  && t.val == ((lineAt lines sr).drop sc).take (ec - sc)
                  && wfGo lines sr ec false ts
              else
                decide (sr < er) && decide (er ≤ n) && decide (1 ≤ ec)
                  && decide (ec ≤ (lineAt lines er).length)
                  && t.line == ((lines.drop (sr - 1)).take (er - sr + 1)).flatten
                  && t.val == ((lineAt lines sr).drop sc
                      ++ ((lines.drop sr).take (er - sr - 1)).flatten
                      ++ (lineAt lines er).take ec)
                  && wfGo lines er ec true ts))

/-- Modelled from the spec: a token stream is a tokenization of
`text` when it starts on line 1 and tiles the text per the scanner
contract. -/
def wfTokens (text : List Char) (toks : List Tok) : Bool :=
  (match toks with
   | [] => true
   | t :: _ => t.start.1 == 1) &&
    wfGo (physLines text) 1 0 false toks

/-- Every token up to and including the first non-whitespace token
starts at column 0 (no leading indentation before the first code
token). -/
def leadOK : List Tok → Bool
  | [] => true
  | t :: ts =>
    t.start.2 == 0 && (if WHITESPACE.contains t.kind then leadOK ts else true)

theorem physLines_ne_nil (cs : List Char) : ∀ l ∈ physLines cs, l ≠ [] := by
  induction cs with
  | nil => simp [physLines]
  | cons c cs ih =>
    intro l hl
    by_cases h : c = '\n'
    · simp [physLines, h] at hl
      rcases hl with hl | hl
      · simp [hl]
      · exact ih l hl
    · simp only [physLines, h, if_false, if_neg] at hl
      rcases hp : physLines cs with _ | ⟨x, xs⟩
      · rw [hp] at hl; simp at hl; simp [hl]
      · rw [hp] at hl
        simp at hl
        rcases hl with hl | hl
        · simp [hl]
        · exact ih l (by rw [hp]; exact List.mem_cons_of_mem _ hl)

theorem lineAt_ne_nil {lines : List (List Char)} (hlines : ∀ l ∈ lines, l ≠ [])
    {r : Nat} (h1 : 1 ≤ r) (h2 : r ≤ lines.length) : lineAt lines r ≠ [] := by
  have hr : r - 1 < lines.length := by omega
  rw [lineAt, List.getD_eq_getElem _ _ hr]
  exact hlines _ (List.getElem_mem hr)

theorem expandtabsLen_replicate_space (k : Nat) :
    expandtabsLen (List.replicate k ' ') = k := by
  have hgen : ∀ k total col,
      ((List.replicate k ' ').foldl
        (fun (acc : Nat × Nat) c =>
          let (t, co) := acc
          if c = '\t' then (t + (8 - co % 8), 0)
          else if c = '\n' ∨ c = '\r' then (t + 1, 0)
          else (t + 1, co + 1)) (total, col)) = (total + k, col + k) := by
    intro k
    induction k with
    | zero => intro total col; simp
    | succ k ih =>
      intro total col
      rw [List.replicate_succ, List.foldl_cons]
      simpa [Nat.add_assoc, Nat.add_comm 1 k] using ih (total + 1) (col + 1)
  unfold expandtabsLen
  rw [hgen k 0 0]
  simp

theorem all_spaces_replicate {l : List Char} (h : l.all (· == ' ') = true) :
    l = List.replicate l.length ' ' := by
  rw [List.eq_replicate_iff]
  refine ⟨rfl, fun b hb => ?_⟩
  have := List.all_eq_true.mp h b hb
  simpa using this

theorem flatten_drop_eq (lines : List (List Char)) (r : Nat) :
    (lines.drop r).flatten = lineAt lines (r + 1) ++ (lines.drop (r + 1)).flatten := by
  by_cases h : r < lines.length
  · have hline : lineAt lines (r + 1) = lines[r] := by
      rw [lineAt, Nat.add_sub_cancel, List.getD_eq_getElem _ _ h]
    rw [List.drop_eq_getElem_cons h, List.flatten_cons, hline]
  · have h1 : lines.drop r = [] := List.drop_eq_nil_of_le (by omega)
    have h2 : lines.drop (r + 1) = [] := List.drop_eq_nil_of_le (by omega)
    have h3 : lineAt lines (r + 1) = [] := by
      rw [lineAt]
      apply List.getD_eq_default
      omega
    simp [h1, h2, h3]

theorem textSuffix_step (lines : List (List Char)) (r c : Nat) :
    textSuffix lines r c =
      (lineAt lines r).drop c ++ textSuffix lines (r + 1) 0 := by
  rw [textSuffix, textSuffix, flatten_drop_eq lines r]
  simp

theorem textSuffix_backslash (lines : List (List Char)) (k : Nat) :
    ∀ r, (∀ i ∈ List.range' (r + 1) k, lineAt lines i = ['\\', '\n']) →
      textSuffix lines (r + 1) 0 =
        (List.replicate k (['\\', '\n'] : List Char)).flatten ++
          textSuffix lines (r + 1 + k) 0 := by
  induction k with
  | zero => intro r _; simp
  | succ k ih =>
    intro r hbs
    have h1 : lineAt lines (r + 1) = ['\\', '\n'] :=
      hbs (r + 1) (by simp [List.mem_range'_1])
    rw [textSuffix_step lines (r + 1) 0]
    have h2 := ih (r + 1) (by
      intro i hi
      apply hbs
      simp [List.mem_range'_1] at hi ⊢
      omega)
    rw [show r + 1 + 1 = r + 2 by omega] at h2
    rw [h2, h1]
    simp [List.replicate_succ]
    rw [show r + 1 + (k + 1) = r + 2 + k by omega]

theorem drop_split {α : Type} (l : List α) {c sc : Nat} (h : c ≤ sc) :
    l.drop c = (l.drop c).take (sc - c) ++ l.drop sc := by
  conv_lhs => rw [← List.take_append_drop (sc - c) (l.drop c)]
  rw [List.drop_drop]
  congr 2
  omega

theorem flatten_drop_split (lines : List (List Char)) {sr er : Nat}
    (h : sr < er) :
    (lines.drop sr).flatten =
      ((lines.drop sr).take (er - sr - 1)).flatten ++ lineAt lines er ++
        (lines.drop er).flatten := by
  conv_lhs => rw [← List.take_append_drop (er - sr - 1) (lines.drop sr)]
  rw [List.flatten_append, List.drop_drop]
  rw [show sr + (er - sr - 1) = er - 1 by omega]
  rw [show (lines.drop (er - 1)).flatten =
      lineAt lines er ++ (lines.drop er).flatten by
    have := flatten_drop_eq lines (er - 1)
    rw [show er - 1 + 1 = er by omega] at this
    exact this]
  simp

theorem lineAt_past {lines : List (List Char)} {r : Nat}
    (h : lines.length < r) : lineAt lines r = [] := by
  rw [lineAt]
  apply List.getD_eq_default
  omega

theorem textSuffix_past {lines : List (List Char)} {r : Nat}
    (h : lines.length < r) (c : Nat) : textSuffix lines r c = [] := by
  rw [textSuffix, lineAt_past h]
  have hd : lines.drop r = [] := List.drop_eq_nil_of_le (by omega)
  simp [hd]

theorem slice_glue (l : List Char) {c sc ec : Nat} (h1 : c ≤ sc) (h2 : sc ≤ ec) :
    (l.drop c).take (sc - c) ++ (l.drop sc).take (ec - sc) =
      (l.drop c).take (ec - c) := by
  rw [show ec - c = (sc - c) + (ec - sc) by omega, List.take_add]
  congr 2
  rw [List.drop_drop]
  congr 1
  omega

theorem take_prefix {l m : List Char} {k : Nat} (h : k ≤ l.length) :
    (l ++ m).take k = l.take k :=
  List.take_append_of_le_length h

theorem slice_prefix {l m : List Char} {c k : Nat} (h : k ≤ l.length) :
    ((l ++ m).drop c).take (k - c) = (l.drop c).take (k - c) := by
  by_cases hc : c ≤ l.length
  · rw [List.drop_append_of_le_length hc]
    exact take_prefix (by simp; omega)
  · rw [show k - c = 0 by omega]
    simp

theorem textSuffix_take (lines : List (List Char)) (r : Nat) {c ec : Nat}
    (h1 : c ≤ ec) :
    textSuffix lines r c =
      ((lineAt lines r).drop c).take (ec - c) ++ textSuffix lines r ec := by
  rw [textSuffix, textSuffix, ← List.append_assoc]
  congr 1
  exact drop_split _ h1

theorem textSuffix_multi (lines : List (List Char)) {sr er : Nat} (c ec : Nat)
    (h1 : sr < er) :
    textSuffix lines sr c =
      (lineAt lines sr).drop c ++ ((lines.drop sr).take (er - sr - 1)).flatten
        ++ ((lineAt lines er).take ec ++ textSuffix lines er ec) := by
  rw [textSuffix, flatten_drop_split lines h1, textSuffix]
  rw [show (lineAt lines er).take ec ++
        ((lineAt lines er).drop ec ++ (lines.drop er).flatten) =
      lineAt lines er ++ (lines.drop er).flatten by
    rw [← List.append_assoc, List.take_append_drop]]
  simp [List.append_assoc]

theorem line_span (lines : List (List Char)) {sr : Nat} (er : Nat)
    (h1 : 1 ≤ sr) (h2 : sr ≤ lines.length) :
    ((lines.drop (sr - 1)).take (er - sr + 1)).flatten
      = lineAt lines sr ++ ((lines.drop sr).take (er - sr)).flatten := by
  have hlt : sr - 1 < lines.length := by omega
  have hd : lines.drop (sr - 1) = lines[sr - 1] :: lines.drop sr := by
    rw [List.drop_eq_getElem_cons hlt, show sr - 1 + 1 = sr by omega]
  rw [hd, List.take_succ_cons, List.flatten_cons]
  congr 1
  rw [lineAt, List.getD_eq_getElem _ _ hlt]

theorem take_all_spaces_eq {l : List Char} {k : Nat}
    (hall : (l.take k).all (· == ' ') = true) (hk : k ≤ l.length) :
    l.take k = List.replicate k ' ' := by
  have := all_spaces_replicate hall
  rwa [List.length_take, Nat.min_eq_left hk] at this

theorem textSuffix_multi0 (lines : List (List Char)) {sr er : Nat} (sc ec : Nat)
    (h1 : sr < er) :
    textSuffix lines sr 0 =
      (lineAt lines sr).take sc ++ ((lineAt lines sr).drop sc
        ++ ((lines.drop sr).take (er - sr - 1)).flatten
        ++ ((lineAt lines er).take ec ++ textSuffix lines er ec)) := by
  rw [textSuffix_multi lines 0 ec h1]
  simp only [List.drop_zero]
  conv_lhs => rw [← List.take_append_drop sc (lineAt lines sr)]
  simp only [List.append_assoc]

theorem textSuffix_multiMid (lines : List (List Char)) {sr er : Nat}
    (slc sc ec : Nat) (h1 : sr < er) (hcsc : slc ≤ sc) :
    textSuffix lines sr slc =
      ((lineAt lines sr).drop slc).take (sc - slc) ++ ((lineAt lines sr).drop sc
        ++ ((lines.drop sr).take (er - sr - 1)).flatten
        ++ ((lineAt lines er).take ec ++ textSuffix lines er ec)) := by
  rw [textSuffix_multi lines slc ec h1]
  conv_lhs => rw [drop_split (lineAt lines sr) hcsc]
  simp only [List.append_assoc]

theorem detokStep_flush (r slc : Nat) (slast : List Char) (sbase : Option Nat)
    (t : Tok) (hgt : r < t.start.1) (hr0 : r ≠ 0) (hne : slast ≠ [])
    (hkI : ¬ t.kind = INDENT) :
    detokStep 0 ⟨r, slc, slast, sbase⟩ t =
      ((if slast.length > slc then slast.drop slc else []) ++
        (List.replicate (t.start.1 - r - 1) (['\\', '\n'] : List Char)).flatten ++
        (detokStep 0 ⟨t.start.1, 0, [], sbase⟩ t).1,
        (detokStep 0 ⟨t.start.1, 0, [], sbase⟩ t).2) := by
  obtain ⟨kind, val, ⟨sr, sc⟩, ⟨er, ec⟩, line⟩ := t
  dsimp only at hgt hkI ⊢
  have hse : slast.isEmpty = false := by
    cases slast with
    | nil => exact absurd rfl hne
    | cons a l => rfl
  have hsr0 : ¬ sr = 0 := by omega
  by_cases hgap : sr > r + 1
  · simp [detokStep, hse, hr0, hsr0, hgt, hgap, Nat.sub_sub, hkI,
      List.append_assoc]
  · have hz : sr - r - 1 = 0 := by omega
    simp [detokStep, hse, hr0, hsr0, hgt, hgap, hz, hkI, List.append_assoc]

theorem leadOK_rest {t : Tok} {ts : List Tok} (h : leadOK (t :: ts) = true)
    (hws : t.kind ∈ WHITESPACE) : leadOK ts = true := by
  simp [leadOK] at h
  tauto

theorem detokStep_zero (indent : Nat) (slc : Nat) (slast : List Char)
    (sbase : Option Nat) (t : Tok) :
    detokStep indent ⟨0, slc, slast, sbase⟩ t =
      detokStep indent ⟨t.start.1, slc, slast, sbase⟩ t := by
  obtain ⟨kind, val, ⟨sr, sc⟩, ⟨er, ec⟩, line⟩ := t
  by_cases h : sr = 0 <;> simp [detokStep, h]

theorem detokGo_textSuffix :
    ∀ (ts : List Tok) (lines : List (List Char)) (r c : Nat)
      (needSame : Bool) (st : DState),
      (∀ l ∈ lines, l ≠ []) →
      wfGo lines r c needSame ts = true →
      1 ≤ r →
      st.lc = c →
      (st.baseindent = none ∧ leadOK ts = true ∨ st.baseindent = some 0) →
      (st.lr = r ∨ st.lr = 0 ∧ c = 0 ∧ st.last = [] ∧
        (∀ u ∈ ts.head?, u.start.1 = r)) →
      (needSame = true ∨ (∀ u ∈ ts.head?, u.start.1 = r) ∨
        (st.last.drop c = (lineAt lines r).drop c ∧
          (st.last = [] → lines.length < r))) →
      detokGo 0 st ts = textSuffix lines r c := by
  intro ts
  induction ts with
  | nil =>
    intro lines r c needSame st _ hwf _ _ _ _ _
    simp only [wfGo, beq_iff_eq] at hwf
    simp [detokGo, hwf]
  | cons t ts ih =>
    intro lines r c needSame st hlines hwf hr1 hlc hbase h2 h3
    obtain ⟨kind, val, ⟨sr, sc⟩, ⟨er, ec⟩, line⟩ := t
    obtain ⟨slr, slc, slast, sbase⟩ := st
    dsimp only at hlc hbase h2 h3
    suffices key :
        detokGo 0 ⟨r, slc, slast, sbase⟩
            (⟨kind, val, (sr, sc), (er, ec), line⟩ :: ts) =
          textSuffix lines r c by
      rcases h2 with hslr | ⟨hslr, hc0, hlast0, hhead⟩
      · exact hslr ▸ key
      · subst hslr
        have hsrr : sr = r :=
          hhead ⟨kind, val, (sr, sc), (er, ec), line⟩ (by simp)
        have hz : detokStep 0 ⟨0, slc, slast, sbase⟩
              ⟨kind, val, (sr, sc), (er, ec), line⟩ =
            detokStep 0 ⟨r, slc, slast, sbase⟩
              ⟨kind, val, (sr, sc), (er, ec), line⟩ := by
          rw [detokStep_zero]
          dsimp only
          rw [hsrr]
        simp only [detokGo] at key ⊢
        rw [hz]
        exact key
    clear h2
    by_cases hsr : sr = r
    · subst hsr
      by_cases hM : lines.length < sr
      · -- end-of-input markers past the last line
        simp only [wfGo] at hwf
        simp [hM] at hwf
        obtain ⟨⟨⟨⟨⟨⟨⟨⟨hkind, hsrn⟩, hsc⟩, hc⟩, her⟩, hec⟩, hval⟩, hline⟩, hrec⟩ := hwf
        replace her := her.symm
        subst hsc hc her hec hval hline hlc
        have hkI : (kind == INDENT) = false := by
          rcases hkind with h | h <;> subst h <;> decide
        have hws : kind ∈ WHITESPACE := by
          rcases hkind with h | h <;> subst h <;> decide
        have hnogt : ¬ (sr > sr) := by omega
        have hbase' : sbase = none ∧ leadOK ts = true ∨ sbase = some 0 := by
          rcases hbase with ⟨hbn, hlead⟩ | hb0
          · exact Or.inl ⟨hbn, leadOK_rest hlead hws⟩
          · exact Or.inr hb0
        have hstep : detokStep 0 ⟨sr, 0, slast, sbase⟩
              ⟨kind, [], (sr, 0), (sr, 0), []⟩ =
            ([], ⟨sr, 0, [], sbase⟩) := by
          rcases hbase with ⟨hbn, _⟩ | hb0
          · subst hbn
            simp [detokStep, hnogt, hkI, hws, expandtabsLen]
          · subst hb0
            simp [detokStep, hnogt, hkI, hws, expandtabsLen]
        have hrest := ih lines sr 0 false ⟨sr, 0, [], sbase⟩ hlines hrec
          (by omega) rfl hbase' (Or.inl rfl)
          (Or.inr (Or.inr ⟨by simp [lineAt_past hM], fun _ => hM⟩))
        simp only [detokGo]
        rw [hstep]
        simpa using hrest
      · by_cases hI : kind = INDENT
        · -- INDENT on the current line
          subst hI
          simp only [wfGo] at hwf
          simp [hM] at hwf
          obtain ⟨⟨⟨hcsc, hsclen⟩, hallsp⟩, ⟨⟨⟨⟨⟨hsc, hc⟩, her⟩, heclen⟩, hval⟩, hline⟩, hrec⟩ := hwf
          replace her := her.symm
          subst hsc hc her hval hline hlc
          have hnogt : ¬ (sr > sr) := by omega
          have hbase' : sbase = none ∧ leadOK ts = true ∨ sbase = some 0 := by
            rcases hbase with ⟨hbn, hlead⟩ | hb0
            · exact Or.inl ⟨hbn, leadOK_rest hlead (show INDENT ∈ WHITESPACE by decide)⟩
            · exact Or.inr hb0
          have hstep : detokStep 0 ⟨sr, 0, slast, sbase⟩
                ⟨INDENT, (lineAt lines sr).take ec, (sr, 0), (sr, ec),
                  lineAt lines sr⟩ =
              ([], ⟨sr, 0, slast, sbase⟩) := by
            simp [detokStep, hnogt]
          have hrest := ih lines sr 0 true ⟨sr, 0, slast, sbase⟩ hlines hrec
            (by omega) rfl hbase' (Or.inl rfl) (Or.inl rfl)
          simp only [detokGo]
          rw [hstep]
          simpa using hrest
        · by_cases hE : er = sr
          · -- a single-line token on the current line
            replace hE := hE.symm
            subst hE
            subst hlc
            simp only [wfGo] at hwf
            simp [hM, hI] at hwf
            obtain ⟨⟨⟨hcsc, hsclen⟩, hallsp⟩, ⟨⟨⟨hscec, heclen⟩, hline⟩, hval⟩, hrec⟩ := hwf
            have hnogt : ¬ (sr > sr) := by omega
            have hlineAtne : lineAt lines sr ≠ [] :=
              lineAt_ne_nil hlines (by omega) (by omega)
            have hlastgood : (lineAt lines sr).drop ec = (lineAt lines sr).drop ec ∧
                (lineAt lines sr = [] → lines.length < sr) :=
              ⟨rfl, fun hnil => absurd hnil hlineAtne⟩
            by_cases hc0 : slc = 0
            · subst hc0
              have hsp : ∀ x ∈ (lineAt lines sr).take sc, x = ' ' := by
                rcases hallsp with h | h
                · exact absurd rfl h
                · exact h
              have hrepl : (lineAt lines sr).take sc = List.replicate sc ' ' := by
                rw [List.eq_replicate_iff]
                exact ⟨by rw [List.length_take]; omega, hsp⟩
              rcases hbase with ⟨hbn, hlead⟩ | hb0
              · -- baseindent still unset: the token is unindented
                subst hbn
                have hl := hlead
                simp [leadOK] at hl
                obtain ⟨hsc0, hlrest⟩ := hl
                subst hsc0
                by_cases hwsk : kind ∈ WHITESPACE
                · have hstep : detokStep 0 ⟨sr, 0, slast, none⟩
                        ⟨kind, val, (sr, 0), (sr, ec), line⟩ =
                      (val, ⟨sr, ec, line, none⟩) := by
                    simp [detokStep, hnogt, hI, hwsk]
                  have hih := ih lines sr ec false ⟨sr, ec, line, none⟩ hlines hrec
                    (by omega) rfl (Or.inl ⟨rfl, hlrest.resolve_left (by simpa using hwsk)⟩)
                    (Or.inl rfl)
                    (Or.inr (Or.inr (by rw [hline]; exact hlastgood)))
                  simp only [detokGo]
                  rw [hstep]
                  rw [textSuffix_take lines sr (Nat.zero_le ec)]
                  simp only [hih]
                  simp [hval]
                · have hstep : detokStep 0 ⟨sr, 0, slast, none⟩
                        ⟨kind, val, (sr, 0), (sr, ec), line⟩ =
                      (val, ⟨sr, ec, line, some 0⟩) := by
                    simp [detokStep, hnogt, hI, hwsk, hline, expandtabsLen]
                  have hih := ih lines sr ec false ⟨sr, ec, line, some 0⟩ hlines hrec
                    (by omega) rfl (Or.inr rfl)
                    (Or.inl rfl)
                    (Or.inr (Or.inr (by rw [hline]; exact hlastgood)))
                  simp only [detokGo]
                  rw [hstep]
                  rw [textSuffix_take lines sr (Nat.zero_le ec)]
                  simp only [hih]
                  simp [hval]
              · -- baseindent already zero: re-emit the indentation
                subst hb0
                have hcur : expandtabsLen (line.take sc) = sc := by
                  rw [hline, hrepl, expandtabsLen_replicate_space]
                have hstep : detokStep 0 ⟨sr, 0, slast, some 0⟩
                      ⟨kind, val, (sr, sc), (sr, ec), line⟩ =
                    (List.replicate sc ' ' ++ val, ⟨sr, ec, line, some 0⟩) := by
                  simp [detokStep, hnogt, hI, hcur]
                have hih := ih lines sr ec false ⟨sr, ec, line, some 0⟩ hlines hrec
                  (by omega) rfl (Or.inr rfl)
                  (Or.inl rfl)
                  (Or.inr (Or.inr (by rw [hline]; exact hlastgood)))
                simp only [detokGo]
                rw [hstep]
                rw [textSuffix_take lines sr (Nat.zero_le ec)]
                simp only [hih]
                rw [hval, ← hrepl]
                have hglue := slice_glue (lineAt lines sr) (Nat.zero_le sc) hscec
                simp only [Nat.sub_zero, List.drop_zero] at hglue ⊢
                simp [hglue]
            · -- mid-line token: copy the intraline gap
              have hb0 : sbase = some 0 := by
                rcases hbase with ⟨hbn, hlead⟩ | hb0
                · exfalso
                  have hl := hlead
                  simp [leadOK] at hl
                  omega
                · exact hb0
              subst hb0
              have hstep : detokStep 0 ⟨sr, slc, slast, some 0⟩
                    ⟨kind, val, (sr, sc), (sr, ec), line⟩ =
                  (((lineAt lines sr).drop slc).take (sc - slc) ++ val,
                    ⟨sr, ec, line, some 0⟩) := by
                by_cases h : sc > slc
                · simp [detokStep, hnogt, hc0, h, hline]
                · have hz : sc - slc = 0 := by omega
                  simp [detokStep, hnogt, hc0, h, hz]
              have hih := ih lines sr ec false ⟨sr, ec, line, some 0⟩ hlines hrec
                (by omega) rfl (Or.inr rfl)
                (Or.inl rfl)
                (Or.inr (Or.inr (by rw [hline]; exact hlastgood)))
              simp only [detokGo]
              rw [hstep]
              rw [textSuffix_take lines sr (show slc ≤ ec by omega)]
              simp only [hih]
              rw [hval, ← slice_glue (lineAt lines sr) hcsc hscec]
          · -- a token spanning several physical lines
            subst hlc
            simp only [wfGo] at hwf
            simp [hM, hI, hE] at hwf
            obtain ⟨⟨⟨hcsc, hsclen⟩, hallsp⟩,
              ⟨⟨⟨⟨⟨⟨hsrer, herlen⟩, hec1⟩, heclen⟩, hline⟩, hval⟩, hrec⟩⟩ := hwf
            have hnogt : ¬ (sr > sr) := by omega
            have hlinedec : line =
                lineAt lines sr ++ ((lines.drop sr).take (er - sr)).flatten := by
              rw [hline]
              exact line_span lines er (by omega) (by omega)
            by_cases hc0 : slc = 0
            · subst hc0
              have hsp : ∀ x ∈ (lineAt lines sr).take sc, x = ' ' := by
                rcases hallsp with h | h
                · exact absurd rfl h
                · exact h
              have hrepl : (lineAt lines sr).take sc = List.replicate sc ' ' := by
                rw [List.eq_replicate_iff]
                exact ⟨by rw [List.length_take]; omega, hsp⟩
              rcases hbase with ⟨hbn, hlead⟩ | hb0
              · subst hbn
                have hl := hlead
                simp [leadOK] at hl
                obtain ⟨hsc0, hlrest⟩ := hl
                subst hsc0
                by_cases hwsk : kind ∈ WHITESPACE
                · have hstep : detokStep 0 ⟨sr, 0, slast, none⟩
                        ⟨kind, val, (sr, 0), (er, ec), line⟩ =
                      (val, ⟨er, ec, line, none⟩) := by
                    simp [detokStep, hnogt, hI, hwsk]
                  have hih := ih lines er ec true ⟨er, ec, line, none⟩ hlines hrec
                    (by omega) rfl
                    (Or.inl ⟨rfl, hlrest.resolve_left (by simpa using hwsk)⟩)
                    (Or.inl rfl) (Or.inl rfl)
                  simp only [detokGo]
                  rw [hstep]
                  rw [textSuffix_multi lines 0 ec hsrer]
                  simp [hih, hval, List.append_assoc]
                · have hstep : detokStep 0 ⟨sr, 0, slast, none⟩
                        ⟨kind, val, (sr, 0), (er, ec), line⟩ =
                      (val, ⟨er, ec, line, some 0⟩) := by
                    simp [detokStep, hnogt, hI, hwsk, expandtabsLen]
                  have hih := ih lines er ec true ⟨er, ec, line, some 0⟩ hlines hrec
                    (by omega) rfl (Or.inr rfl) (Or.inl rfl) (Or.inl rfl)
                  simp only [detokGo]
                  rw [hstep]
                  rw [textSuffix_multi lines 0 ec hsrer]
                  simp [hih, hval, List.append_assoc]
              · subst hb0
                have hcur : expandtabsLen (line.take sc) = sc := by
                  rw [hlinedec, take_prefix hsclen, hrepl,
                    expandtabsLen_replicate_space]
                have hstep : detokStep 0 ⟨sr, 0, slast, some 0⟩
                      ⟨kind, val, (sr, sc), (er, ec), line⟩ =
                    (List.replicate sc ' ' ++ val, ⟨er, ec, line, some 0⟩) := by
                  simp [detokStep, hnogt, hI, hcur]
                have hih := ih lines er ec true ⟨er, ec, line, some 0⟩ hlines hrec
                  (by omega) rfl (Or.inr rfl) (Or.inl rfl) (Or.inl rfl)
                simp only [detokGo]
                rw [hstep]
                rw [textSuffix_multi0 lines sc ec hsrer]
                rw [← hrepl, hval]
                simp [hih, List.append_assoc]
            · have hb0 : sbase = some 0 := by
                rcases hbase with ⟨hbn, hlead⟩ | hb0
                · exfalso
                  have hl := hlead
                  simp [leadOK] at hl
                  omega
                · exact hb0
              subst hb0
              have he2 : (line.drop slc).take (sc - slc) =
                  ((lineAt lines sr).drop slc).take (sc - slc) := by
                rw [hlinedec]
                exact slice_prefix hsclen
              have hstep : detokStep 0 ⟨sr, slc, slast, some 0⟩
                    ⟨kind, val, (sr, sc), (er, ec), line⟩ =
                  (((lineAt lines sr).drop slc).take (sc - slc) ++ val,
                    ⟨er, ec, line, some 0⟩) := by
                by_cases h : sc > slc
                · simp [detokStep, hnogt, hc0, h, he2]
                · have hz : sc - slc = 0 := by omega
                  simp [detokStep, hnogt, hc0, h, hz]
              have hih := ih lines er ec true ⟨er, ec, line, some 0⟩ hlines hrec
                (by omega) rfl (Or.inr rfl) (Or.inl rfl) (Or.inl rfl)
              simp only [detokGo]
              rw [hstep]
              rw [textSuffix_multiMid lines slc sc ec hsrer hcsc]
              rw [hval]
              simp [hih, List.append_assoc]
    · -- the token starts on a later line: flush and continue there
      subst hlc
      simp only [wfGo] at hwf
      by_cases hM : lines.length < sr
      · -- jump to the end-of-input markers
        simp [hsr, hM] at hwf
        obtain ⟨⟨⟨⟨⟨⟨⟨hns, h1r⟩, hrn⟩, hrsr⟩, hclen⟩, hskip⟩, hind⟩,
          ⟨⟨⟨⟨⟨⟨⟨hkind, hsrn⟩, hsc⟩, her⟩, hec⟩, hval⟩, hline⟩, hrec⟩⟩ := hwf
        replace her := her.symm
        subst hsc her hec hval hline
        rcases h3 with h3 | h3 | h3
        · rw [h3] at hns; simp at hns
        · exact absurd (h3 ⟨kind, [], (sr, 0), (sr, 0), []⟩ (by simp)) hsr
        obtain ⟨hlasteq, hlastnil⟩ := h3
        have hlastne : slast ≠ [] := fun h => absurd (hlastnil h) (by omega)
        have hkI : ¬ kind = INDENT := by
          rcases hkind with h | h <;> subst h <;> decide
        have hws : kind ∈ WHITESPACE := by
          rcases hkind with h | h <;> subst h <;> decide
        have htail : (if slast.length > slc then slast.drop slc else []) =
            (lineAt lines r).drop slc := by
          by_cases h : slast.length > slc
          · simp [h, hlasteq]
          · simp only [if_neg h]
            rw [← hlasteq]
            symm
            exact List.drop_eq_nil_of_le (by omega)
        have hts : textSuffix lines r slc =
            (lineAt lines r).drop slc ++
              ((List.replicate (sr - r - 1) (['\\', '\n'] : List Char)).flatten ++
                textSuffix lines sr 0) := by
          rw [textSuffix_step lines r slc,
            textSuffix_backslash lines (sr - r - 1) r (by
              intro i hi
              simp [List.mem_range'_1] at hi
              exact hskip i (by omega) (by omega)),
            show r + 1 + (sr - r - 1) = sr by omega]
        have hflush := detokStep_flush r slc slast sbase
          ⟨kind, [], (sr, 0), (sr, 0), []⟩ hrsr (by omega) hlastne hkI
        have hnogt : ¬ (sr > sr) := by omega
        have hbase' : sbase = none ∧ leadOK ts = true ∨ sbase = some 0 := by
          rcases hbase with ⟨hbn, hlead⟩ | hb0
          · exact Or.inl ⟨hbn, leadOK_rest hlead hws⟩
          · exact Or.inr hb0
        have hstep2 : detokStep 0 ⟨sr, 0, [], sbase⟩
              ⟨kind, [], (sr, 0), (sr, 0), []⟩ =
            ([], ⟨sr, 0, [], sbase⟩) := by
          rcases hbase with ⟨hbn, _⟩ | hb0
          · subst hbn
            simp [detokStep, hnogt, hkI, hws, expandtabsLen]
          · subst hb0
            simp [detokStep, hnogt, hkI, hws, expandtabsLen]
        have hih := ih lines sr 0 false ⟨sr, 0, [], sbase⟩ hlines hrec
          (by omega) rfl hbase' (Or.inl rfl)
          (Or.inr (Or.inr ⟨by simp [lineAt_past hM], fun _ => hM⟩))
        simp only [detokGo]
        rw [hflush, htail, hstep2]
        rw [hts]
        simp [hih, List.append_assoc]
      · by_cases hI : kind = INDENT
        · -- jump onto an INDENT: it must sit on the very next line
          subst hI
          simp [hsr, hM] at hwf
          obtain ⟨⟨⟨⟨⟨⟨⟨hns, h1r⟩, hrn⟩, hrsr⟩, hclen⟩, hskip⟩, hind⟩,
            ⟨⟨hsclen, hallsp⟩, ⟨⟨⟨⟨⟨hsc, her⟩, heclen⟩, hval⟩, hline⟩, hrec⟩⟩⟩ := hwf
          replace her := her.symm
          subst hsc her hval hline hind
          rcases h3 with h3 | h3 | h3
          · rw [h3] at hns; simp at hns
          · exact absurd (h3 ⟨INDENT, (lineAt lines (r + 1)).take ec, (r + 1, 0),
              (r + 1, ec), lineAt lines (r + 1)⟩ (by simp)) hsr
          obtain ⟨hlasteq, hlastnil⟩ := h3
          have hlastne : slast ≠ [] := fun h => absurd (hlastnil h) (by omega)
          have hse : slast.isEmpty = false := by
            cases slast with
            | nil => exact absurd rfl hlastne
            | cons a l => rfl
          have hr0 : ¬ r = 0 := by omega
          have hnogap : ¬ (r + 1 > r + 1) := by omega
          have hstep : detokStep 0 ⟨r, slc, slast, sbase⟩
                ⟨INDENT, (lineAt lines (r + 1)).take ec, (r + 1, 0),
                  (r + 1, ec), lineAt lines (r + 1)⟩ =
              ((lineAt lines r).drop slc, ⟨r + 1, 0, slast, sbase⟩) := by
            by_cases hlen : slast.length > slc
            · simp [detokStep, hse, hr0, hnogap, hlen, hlasteq]
            · have h1 : slast.drop slc = [] := List.drop_eq_nil_of_le (by omega)
              have h2 : (lineAt lines r).drop slc = [] := by rw [← hlasteq, h1]
              simp [detokStep, hse, hr0, hnogap, hlen, h2]
          have hbase' : sbase = none ∧ leadOK ts = true ∨ sbase = some 0 := by
            rcases hbase with ⟨hbn, hlead⟩ | hb0
            · exact Or.inl ⟨hbn,
                leadOK_rest hlead (show INDENT ∈ WHITESPACE by decide)⟩
            · exact Or.inr hb0
          have hih := ih lines (r + 1) 0 true ⟨r + 1, 0, slast, sbase⟩ hlines
            hrec (by omega) rfl hbase' (Or.inl rfl) (Or.inl rfl)
          have hts : textSuffix lines r slc =
              (lineAt lines r).drop slc ++ textSuffix lines (r + 1) 0 :=
            textSuffix_step lines r slc
          simp only [detokGo]
          rw [hstep]
          rw [hts]
          simp [hih]
        · by_cases hE : er = sr
          · -- jump to a single-line token
            replace hE := hE.symm
            subst hE
            simp [hsr, hM, hI] at hwf
            obtain ⟨⟨⟨⟨⟨⟨hns, h1r⟩, hrn⟩, hrsr⟩, hclen⟩, hskip⟩,
              ⟨⟨hsclen, hallsp⟩, ⟨⟨⟨⟨hscec, heclen⟩, hline⟩, hval⟩, hrec⟩⟩⟩ := hwf
            rcases h3 with h3 | h3 | h3
            · rw [h3] at hns; simp at hns
            · exact absurd (h3 ⟨kind, val, (sr, sc), (sr, ec), line⟩ (by simp)) hsr
            obtain ⟨hlasteq, hlastnil⟩ := h3
            have hlastne : slast ≠ [] := fun h => absurd (hlastnil h) (by omega)
            have htail : (if slast.length > slc then slast.drop slc else []) =
                (lineAt lines r).drop slc := by
              by_cases h : slast.length > slc
              · simp [h, hlasteq]
              · simp only [if_neg h]
                rw [← hlasteq]
                symm
                exact List.drop_eq_nil_of_le (by omega)
            have hts : textSuffix lines r slc =
                (lineAt lines r).drop slc ++
                  ((List.replicate (sr - r - 1) (['\\', '\n'] : List Char)).flatten ++
                    textSuffix lines sr 0) := by
              rw [textSuffix_step lines r slc,
                textSuffix_backslash lines (sr - r - 1) r (by
              intro i hi
              simp [List.mem_range'_1] at hi
              exact hskip i (by omega) (by omega)),
                show r + 1 + (sr - r - 1) = sr by omega]
            have hflush := detokStep_flush r slc slast sbase
              ⟨kind, val, (sr, sc), (sr, ec), line⟩ hrsr (by omega) hlastne hI
            have hnogt : ¬ (sr > sr) := by omega
            have hlineAtne : lineAt lines sr ≠ [] :=
              lineAt_ne_nil hlines (by omega) (by omega)
            have hlastgood : (lineAt lines sr).drop ec = (lineAt lines sr).drop ec ∧
                (lineAt lines sr = [] → lines.length < sr) :=
              ⟨rfl, fun hnil => absurd hnil hlineAtne⟩
            have hrepl : (lineAt lines sr).take sc = List.replicate sc ' ' := by
              rw [List.eq_replicate_iff]
              exact ⟨by rw [List.length_take]; omega, hallsp⟩
            simp only [detokGo]
            rw [hflush, htail]
            rw [hts]
            rcases hbase with ⟨hbn, hlead⟩ | hb0
            · subst hbn
              have hl := hlead
              simp [leadOK] at hl
              obtain ⟨hsc0, hlrest⟩ := hl
              subst hsc0
              by_cases hwsk : kind ∈ WHITESPACE
              · have hstep2 : detokStep 0 ⟨sr, 0, [], none⟩
                      ⟨kind, val, (sr, 0), (sr, ec), line⟩ =
                    (val, ⟨sr, ec, line, none⟩) := by
                  simp [detokStep, hnogt, hI, hwsk]
                have hih := ih lines sr ec false ⟨sr, ec, line, none⟩ hlines hrec
                  (by omega) rfl
                  (Or.inl ⟨rfl, hlrest.resolve_left (by simpa using hwsk)⟩)
                  (Or.inl rfl)
                  (Or.inr (Or.inr (by rw [hline]; exact hlastgood)))
                rw [hstep2]
                rw [textSuffix_take lines sr (Nat.zero_le ec)]
                simp [hih, hval, List.append_assoc]
              · have hstep2 : detokStep 0 ⟨sr, 0, [], none⟩
                      ⟨kind, val, (sr, 0), (sr, ec), line⟩ =
                    (val, ⟨sr, ec, line, some 0⟩) := by
                  simp [detokStep, hnogt, hI, hwsk, hline, expandtabsLen]
                have hih := ih lines sr ec false ⟨sr, ec, line, some 0⟩ hlines hrec
                  (by omega) rfl (Or.inr rfl)
                  (Or.inl rfl)
                  (Or.inr (Or.inr (by rw [hline]; exact hlastgood)))
                rw [hstep2]
                rw [textSuffix_take lines sr (Nat.zero_le ec)]
                simp [hih, hval, List.append_assoc]
            · subst hb0
              have hcur : expandtabsLen (line.take sc) = sc := by
                rw [hline, hrepl, expandtabsLen_replicate_space]
              have hstep2 : detokStep 0 ⟨sr, 0, [], some 0⟩
                    ⟨kind, val, (sr, sc), (sr, ec), line⟩ =
                  (List.replicate sc ' ' ++ val, ⟨sr, ec, line, some 0⟩) := by
                simp [detokStep, hnogt, hI, hcur]
              have hih := ih lines sr ec false ⟨sr, ec, line, some 0⟩ hlines hrec
                (by omega) rfl (Or.inr rfl)
                (Or.inl rfl)
                (Or.inr (Or.inr (by rw [hline]; exact hlastgood)))
              rw [hstep2]
              rw [textSuffix_take lines sr (Nat.zero_le ec)]
              rw [hval, ← hrepl]
              have hglue := slice_glue (lineAt lines sr) (Nat.zero_le sc) hscec
              simp only [Nat.sub_zero, List.drop_zero] at hglue ⊢
              simp [hih, hglue, List.append_assoc]
          · -- jump to a token spanning several physical lines
            simp [hsr, hM, hI, hE] at hwf
            obtain ⟨⟨⟨⟨⟨⟨hns, h1r⟩, hrn⟩, hrsr⟩, hclen⟩, hskip⟩,
              ⟨⟨hsclen, hallsp⟩,
                ⟨⟨⟨⟨⟨⟨hsrer, herlen⟩, hec1⟩, heclen⟩, hline⟩, hval⟩, hrec⟩⟩⟩ := hwf
            rcases h3 with h3 | h3 | h3
            · rw [h3] at hns; simp at hns
            · exact absurd (h3 ⟨kind, val, (sr, sc), (er, ec), line⟩ (by simp)) hsr
            obtain ⟨hlasteq, hlastnil⟩ := h3
            have hlastne : slast ≠ [] := fun h => absurd (hlastnil h) (by omega)
            have htail : (if slast.length > slc then slast.drop slc else []) =
                (lineAt lines r).drop slc := by
              by_cases h : slast.length > slc
              · simp [h, hlasteq]
              · simp only [if_neg h]
                rw [← hlasteq]
                symm
                exact List.drop_eq_nil_of_le (by omega)
            have hts : textSuffix lines r slc =
                (lineAt lines r).drop slc ++
                  ((List.replicate (sr - r - 1) (['\\', '\n'] : List Char)).flatten ++
                    textSuffix lines sr 0) := by
              rw [textSuffix_step lines r slc,
                textSuffix_backslash lines (sr - r - 1) r (by
              intro i hi
              simp [List.mem_range'_1] at hi
              exact hskip i (by omega) (by omega)),
                show r + 1 + (sr - r - 1) = sr by omega]
            have hflush := detokStep_flush r slc slast sbase
              ⟨kind, val, (sr, sc), (er, ec), line⟩ hrsr (by omega) hlastne hI
            have hnogt : ¬ (sr > sr) := by omega
            have hlinedec : line =
                lineAt lines sr ++ ((lines.drop sr).take (er - sr)).flatten := by
              rw [hline]
              exact line_span lines er (by omega) (by omega)
            have hrepl : (lineAt lines sr).take sc = List.replicate sc ' ' := by
              rw [List.eq_replicate_iff]
              exact ⟨by rw [List.length_take]; omega, hallsp⟩
            simp only [detokGo]
            rw [hflush, htail]
            rw [hts]
            rcases hbase with ⟨hbn, hlead⟩ | hb0
            · subst hbn
              have hl := hlead
              simp [leadOK] at hl
              obtain ⟨hsc0, hlrest⟩ := hl
              subst hsc0
              by_cases hwsk : kind ∈ WHITESPACE
              · have hstep2 : detokStep 0 ⟨sr, 0, [], none⟩
                      ⟨kind, val, (sr, 0), (er, ec), line⟩ =
                    (val, ⟨er, ec, line, none⟩) := by
                  simp [detokStep, hnogt, hI, hwsk]
                have hih := ih lines er ec true ⟨er, ec, line, none⟩ hlines hrec
                  (by omega) rfl
                  (Or.inl ⟨rfl, hlrest.resolve_left (by simpa using hwsk)⟩)
                  (Or.inl rfl) (Or.inl rfl)
                rw [hstep2]
                rw [textSuffix_multi lines 0 ec hsrer]
                simp [hih, hval, List.append_assoc]
              · have hstep2 : detokStep 0 ⟨sr, 0, [], none⟩
                      ⟨kind, val, (sr, 0), (er, ec), line⟩ =
                    (val, ⟨er, ec, line, some 0⟩) := by
                  simp [detokStep, hnogt, hI, hwsk, expandtabsLen]
                have hih := ih lines er ec true ⟨er, ec, line, some 0⟩ hlines hrec
                  (by omega) rfl (Or.inr rfl) (Or.inl rfl) (Or.inl rfl)
                rw [hstep2]
                rw [textSuffix_multi lines 0 ec hsrer]
                simp [hih, hval, List.append_assoc]
            · subst hb0
              have hcur : expandtabsLen (line.take sc) = sc := by
                rw [hlinedec, take_prefix hsclen, hrepl,
                  expandtabsLen_replicate_space]
              have hstep2 : detokStep 0 ⟨sr, 0, [], some 0⟩
                    ⟨kind, val, (sr, sc), (er, ec), line⟩ =
                  (List.replicate sc ' ' ++ val, ⟨er, ec, line, some 0⟩) := by
                simp [detokStep, hnogt, hI, hcur]
              have hih := ih lines er ec true ⟨er, ec, line, some 0⟩ hlines hrec
                (by omega) rfl (Or.inr rfl) (Or.inl rfl) (Or.inl rfl)
              rw [hstep2]
              rw [textSuffix_multi0 lines sc ec hsrer]
              rw [← hrepl, hval]
              simp [hih, List.append_assoc]

/-- A plain token list as `detokenize` input. -/
def entries (ts : List Tok) : List Entry := ts.map .tok

theorem flatten_stmt_entries (ts : List Tok) : flatten_stmt (entries ts) = ts := by
  induction ts with
  | nil => rfl
  | cons t ts ih => simp [entries, flatten_stmt, flattenEntry] at ih ⊢; exact ih

theorem detokGo_append (indent : Nat) (s : DState) (xs ys : List Tok) :
    detokGo indent s (xs ++ ys) =
      detokGo indent s xs ++ detokGo indent (detokState indent s xs) ys := by
  induction xs generalizing s with
  | nil => simp [detokGo, detokState]
  | cons x xs ih => simp [detokGo, detokState, ih]

/-- Processing a zero-width empty-text token at the tracked position
(away from column 0) emits nothing and leaves the state unchanged. -/
theorem detokStep_empty_noop (indent : Nat) (s : DState) (t : Tok)
    (hval : t.val = []) (hstart : t.start = (s.lr, s.lc))
    (hstop : t.stop = (s.lr, s.lc)) (hline : t.line = s.last)
    (hlr : s.lr ≠ 0) (hlc : s.lc ≠ 0) :
    detokStep indent s t = ([], s) := by
  obtain ⟨lr, lc, last, base⟩ := s
  simp only at hstart hstop hline hlr hlc
  simp [detokStep, hval, hstart, hstop, hline, hlr, hlc]

/-- **C6 (corrected), counterexample to the claim as stated.**
Removing an empty-text token is not always output-invariant: an
empty-text token can still trigger the skipped-line bookkeeping
(trailing text of the previous line and `'\\\n'` continuation
lines). -/
theorem C6_counterexample :
    (⟨DEDENT, [], (3, 0), (3, 0), []⟩ : Tok).val = [] ∧
    detokenize (entries [⟨NAME, ['a'], (1, 0), (1, 1), "a\n".toList⟩,
        ⟨DEDENT, [], (3, 0), (3, 0), []⟩]) 0 ≠
      detokenize (entries [⟨NAME, ['a'], (1, 0), (1, 1), "a\n".toList⟩]) 0 :=
  ⟨rfl, by decide⟩

/-- **C6 (amended).** Tokens with empty text never append text of
their own (`if val:` skips them); removing one from the input leaves
the string returned by `detokenize` unchanged provided its
bookkeeping is trivial: it is zero-width at the tracked position
(line and nonzero column reached after the preceding tokens) and
carries the tracked source line.  Elsewhere an empty-text token may
still emit line-continuation or indentation bookkeeping output. -/
theorem C6_empty_text (indent : Nat) (pre post : List Tok) (t : Tok)
    (hval : t.val = [])
    (hstart : t.start =
      ((detokState indent dInit pre).lr, (detokState indent dInit pre).lc))
    (hstop : t.stop = t.start)
    (hline : t.line = (detokState indent dInit pre).last)
    (hlr : (detokState indent dInit pre).lr ≠ 0)
    (hlc : (detokState indent dInit pre).lc ≠ 0) :
    detokenize (entries (pre ++ t :: post)) indent =
      detokenize (entries (pre ++ post)) indent := by
  have hstep := detokStep_empty_noop indent (detokState indent dInit pre) t
    hval hstart (hstop.trans hstart) hline hlr hlc
  simp [detokenize, flatten_stmt_entries, detokGo_append, detokGo, hstep]

theorem C6_empty_text_witness :
    detokenize (entries ([⟨NAME, ['a'], (1, 0), (1, 1), "a\n".toList⟩] ++
        ⟨NEWLINE, [], (1, 1), (1, 1), "a\n".toList⟩ ::
          [⟨NAME, ['b'], (2, 0), (2, 1), "b\n".toList⟩])) 0 =
      detokenize (entries ([⟨NAME, ['a'], (1, 0), (1, 1), "a\n".toList⟩] ++
        [⟨NAME, ['b'], (2, 0), (2, 1), "b\n".toList⟩])) 0 :=
  C6_empty_text 0 [⟨NAME, ['a'], (1, 0), (1, 1), "a\n".toList⟩]
    [⟨NAME, ['b'], (2, 0), (2, 1), "b\n".toList⟩]
    ⟨NEWLINE, [], (1, 1), (1, 1), "a\n".toList⟩
    rfl (by decide) rfl (by decide) (by decide) (by decide)

theorem partition_no_match (ts : List Tok) (sep : Sep)
    (h : ∀ t ∈ ts, matchSep t sep = false) :
    partition ts sep = (ts, [], []) := by
  induction ts with
  | nil => rfl
  | cons t ts ih =>
    have ht : matchSep t sep = false := h t (List.mem_cons_self ..)
    have := ih (fun u hu => h u (List.mem_cons_of_mem _ hu))
    simp [partition, ht, this]

theorem partition_first_match (pre post : List Tok) (t : Tok) (sep : Sep)
    (hpre : ∀ u ∈ pre, matchSep u sep = false)
    (ht : matchSep t sep = true) :
    partition (pre ++ t :: post) sep = (pre, [t], post) := by
  induction pre with
  | nil => simp [partition, ht]
  | cons u pre ih =>
    have hu : matchSep u sep = false := hpre u (List.mem_cons_self ..)
    have := ih (fun v hv => hpre v (List.mem_cons_of_mem _ hv))
    simp [partition, hu, this]

/-- **C9.** For every token list containing no token that matches the
separator (by exact text for a string separator, by token kind for a
numeric one), `partition` returns the entire list as `before`, with
`matched` the empty list and the `after` remainder yielding no
further tokens. -/
theorem C9_partition_no_match (ts : List Tok) (sep : Sep)
    (h : ∀ t ∈ ts, matchSep t sep = false) :
    partition ts sep = (ts, [], []) :=
  partition_no_match ts sep h

/-- Names used in concrete token streams below. -/
def tokN (v : List Char) : Tok := ⟨NAME, v, (1, 0), (1, 1), v⟩

theorem isCloseParen_cases {v : List Char} (h : isCloseParen v = true) :
    v = ['}'] ∨ v = [')'] ∨ v = [']'] := by
  have h' := h
  simp [isCloseParen] at h'
  tauto

/-- **C3.** Whenever `parse_block` meets a DEDENT token whose target
column width (the expanded-tabs width of the line prefix before the
token) is not an entry of the indentation-width stack, it raises
"unindent does not match any outer indentation level" at the
dedent's start position; in particular, the input
`"if foo:\n    bar\n  baz\n"` raises this error at line 3, column 2. -/
theorem C3_dedent_mismatch (s : PState) (t : Tok)
    (hk : t.kind = DEDENT)
    (hw : s.indents.contains (dedentWidth t) = false) :
    pstep s t =
      .error ⟨"unindent does not match any outer indentation level", t.start, []⟩ ∧
    parse_source "if foo:\n    bar\n  baz\n".toList =
      .error ⟨"unindent does not match any outer indentation level", (3, 2), []⟩ := by
  constructor
  · have hw' : dedentWidth t ∉ s.indents := by simpa using hw
    simp [pstep, hk, hw', DEDENT, ENDMARKER]
  · rfl

theorem C3_dedent_mismatch_witness :
    pstep ⟨[], [], [4, 0], [], []⟩ ⟨DEDENT, [], (3, 2), (3, 2), "  baz\n".toList⟩ =
      .error ⟨"unindent does not match any outer indentation level", (3, 2), []⟩ :=
  (C3_dedent_mismatch ⟨[], [], [4, 0], [], []⟩
    ⟨DEDENT, [], (3, 2), (3, 2), "  baz\n".toList⟩ rfl (by decide)).1

/-- **C8.** Whenever `parse_block` meets a closing bracket token
`)`, `]` or `}` that does not match the open-bracket character on
top of the bracket stack (including an empty stack), it raises an
"Unmatched <bracket>" error at the closing token's start position;
in particular `"(1+2]"` errors on the `]` at line 1, column 4. -/
theorem C8_unmatched_close (s : PState) (t : Tok)
    (hk : t.kind = OP) (hv : isCloseParen t.val = true)
    (hmc : s.parens.head? ≠ some (closeParenOf t.val)) :
    pstep s t = .error ⟨"Unmatched " ++ String.mk t.val, t.start, []⟩ ∧
    parse_source "(1+2]".toList = .error ⟨"Unmatched ]", (1, 4), []⟩ := by
  constructor
  · have hopen : isOpenParen t.val = false := by
      rcases isCloseParen_cases hv with h | h | h <;> simp [isOpenParen, h]
    cases hp : s.parens with
    | nil =>
      simp [pstep, hk, hv, hopen, OP, DEDENT, ENDMARKER, INDENT, NEWLINE]
      rw [hp]
    | cons p ps =>
      have hne : p ≠ closeParenOf t.val := by
        intro h; exact hmc (by simp [hp, h])
      simp [pstep, hk, hv, hopen, hp, hne, OP, DEDENT, ENDMARKER, INDENT, NEWLINE]
  · rfl

theorem C8_unmatched_close_witness :
    pstep ⟨[.stmtF [] (tokN ['('])], ['('], [0], [], []⟩
        ⟨OP, [']'], (1, 4), (1, 5), "(1+2]".toList⟩ =
      .error ⟨"Unmatched ]", (1, 4), []⟩ :=
  (C8_unmatched_close ⟨[.stmtF [] (tokN ['('])], ['('], [0], [], []⟩
    ⟨OP, [']'], (1, 4), (1, 5), "(1+2]".toList⟩ rfl (by decide) (by decide)).1

/-- **C4.** When `parse_block` reaches the end marker with a
non-empty bracket stack, the raised error lists the remaining open
brackets innermost-first (the model's `parens` stack keeps the
innermost bracket at its head, which is Python's
`tuple(parens[::-1])`) and carries the end marker's position;
and parsing the input `"(1+1"` raises an unclosed-bracket error
positioned at line 2, column 0 — the scanner's end-of-input error
inside an open bracket, with the message and position fixed by the
repository's test suite. -/
theorem C4_unclosed_at_end (s : PState) (t : Tok)
    (hk : t.kind = ENDMARKER) (hp : s.parens ≠ []) :
    pstep s t = .error ⟨"Unclosed parentheses", t.start, s.parens⟩ ∧
    parse_source "(1+1".toList =
      .error ⟨"EOF in multi-line statement", (2, 0), []⟩ := by
  constructor
  · obtain ⟨a, l, hpl⟩ := List.exists_cons_of_ne_nil hp
    have hne : s.parens.isEmpty = false := by rw [hpl]; rfl
    simp [pstep, hk, hne, DEDENT, ENDMARKER]
  · rfl

theorem C4_unclosed_at_end_witness :
    pstep ⟨[.stmtF [] (tokN ['('])], ['('], [0], [], []⟩
        ⟨ENDMARKER, [], (2, 0), (2, 0), []⟩ =
      .error ⟨"Unclosed parentheses", (2, 0), ['(']⟩ :=
  (C4_unclosed_at_end ⟨[.stmtF [] (tokN ['('])], ['('], [0], [], []⟩
    ⟨ENDMARKER, [], (2, 0), (2, 0), []⟩ rfl (by decide)).1

/-- **C7 (corrected), counterexample to the claim as stated.**  A
stream beginning with a UTF-8 BOM on its own (bare) first line whose
second bare line declares `latin-1` does NOT raise the conflict
error: once the BOM sets the encoding, header scanning stops after
line 1, so the declaration on line 2 is never checked. -/
theorem C7_counterexample :
    ((BOM ++ ('\n' :: "# coding: latin-1\n".toList)).take 3 = BOM ∧
      findCoding "# coding: latin-1\n".toList 0 = some ("latin-1".toList, 10) ∧
      isUtf8Name "latin-1".toList = false) ∧
    tokenize_string (BOM ++ ('\n' :: "# coding: latin-1\n".toList)) =
      .ok [⟨NL, ['\n'], (1, 0), (1, 1), ['\n']⟩,
           ⟨COMMENT, "# coding: latin-1\n".toList, (2, 0), (2, 18),
             "# coding: latin-1\n".toList⟩,
           ⟨ENDMARKER, [], (3, 0), (3, 0), []⟩] := by
  exact ⟨⟨by decide, by decide, by decide⟩, by rfl⟩

/-- **C7 (amended).** If a stream begins with a UTF-8 BOM and the
BOM's own first line declares an encoding other than UTF-8, the
reader raises the conflict error at position (1, column of the
encoding name within the BOM-stripped first line); a declaration on
the second line is ignored because the BOM stops header scanning
after line 1.  In particular a BOM immediately followed (on the same
line) by `# coding: latin-1` errors at the position of `latin-1`. -/
theorem C7_bom_conflict (rest : List Char) (others : List (List Char))
    (name : List Char) (col : Nat)
    (hc : findCoding rest 0 = some (name, col))
    (hn : isUtf8Name name = false) :
    readerModel ((BOM ++ rest) :: others) =
      .error ⟨"UTF-8 BOM, but " ++ String.mk name ++ " encoding requested",
        (1, col), []⟩ ∧
    tokenize_string (BOM ++ "# coding: latin-1\n".toList) =
      .error ⟨"UTF-8 BOM, but latin-1 encoding requested", (1, 10), []⟩ := by
  constructor
  · have hbl : BOM.length = 3 := by decide
    have htake : (BOM ++ rest).take 3 = BOM := by
      rw [← hbl]
      exact List.take_left BOM rest
    have hdrop : (BOM ++ rest).drop 3 = rest := by
      rw [← hbl]
      exact List.drop_left BOM rest
    simp [readerModel, readerGo, encodingLine, htake, hdrop, hc, hn]
  · rfl

theorem C7_bom_conflict_witness :
    readerModel [(BOM ++ "# coding: latin-1\n".toList)] =
      .error ⟨"UTF-8 BOM, but latin-1 encoding requested", (1, 10), []⟩ :=
  (C7_bom_conflict "# coding: latin-1\n".toList [] "latin-1".toList 10
    (by decide) (by decide)).1

theorem C9_partition_no_match_witness :
    (∀ t ∈ [tokN ['a'], tokN ['b']], matchSep t (Sep.text ['x']) = false) ∧
      partition [tokN ['a'], tokN ['b']] (Sep.text ['x'])
        = ([tokN ['a'], tokN ['b']], [], []) :=
  ⟨by decide, C9_partition_no_match _ _ (by decide)⟩

/-- **C5 (corrected), counterexample to the claim as stated.**  The
claim asserts that when no token matches the separator, `rpartition`
returns a `before` holding all of the input tokens; in fact the code
returns everything in `after` (`before` is empty), mirroring
`str.rpartition`. -/
theorem C5_counterexample :
    (∀ t ∈ [tokN ['a']], matchSep t (Sep.text ['x']) = false) ∧
      (rpartition [tokN ['a']] (Sep.text ['x'])).2.1 = [] ∧
      (rpartition [tokN ['a']] (Sep.text ['x'])).1 ≠ [tokN ['a']] := by
  refine ⟨by decide, by decide, by decide⟩

/-- **C5 (amended).** `rpartition` obeys `partition`'s contract at
the LAST matching token, with all three results lists: for a token
list with at least one match, `before` holds the tokens preceding the
last match, `matched` holds that token, `after` holds the rest; when
no token matches, `matched` is empty and `after` (not `before`) holds
all of the input tokens. -/
theorem C5_rpartition_contract (ts : List Tok) (sep : Sep) :
    (∀ pre t post, ts = pre ++ t :: post → matchSep t sep = true →
        (∀ u ∈ post, matchSep u sep = false) →
        rpartition ts sep = (pre, [t], post)) ∧
    ((∀ t ∈ ts, matchSep t sep = false) → rpartition ts sep = ([], [], ts)) := by
  constructor
  · intro pre t post hts ht hpost
    subst hts
    have hrev : (pre ++ t :: post).reverse = post.reverse ++ t :: pre.reverse := by
      simp
    have hp := partition_first_match post.reverse pre.reverse t sep
      (fun u hu => hpost u (List.mem_reverse.mp hu)) ht
    simp [rpartition, hrev, hp]
  · intro h
    have hp := partition_no_match ts.reverse sep
      (fun t htm => h t (List.mem_reverse.mp htm))
    simp [rpartition, hp]

theorem C5_rpartition_contract_witness :
    rpartition [tokN ['a'], tokN ['='], tokN ['b'], tokN ['='], tokN ['c']]
        (Sep.text ['=']) =
      ([tokN ['a'], tokN ['='], tokN ['b']], [tokN ['=']], [tokN ['c']]) :=
  (C5_rpartition_contract _ _).1
    [tokN ['a'], tokN ['='], tokN ['b']] (tokN ['=']) [tokN ['c']]
    (by decide) (by decide) (by decide)

/-! ### C2: verdict on the detokenize round-trip -/

theorem textSuffix_one (lines : List (List Char)) :
    textSuffix lines 1 0 = lines.flatten := by
  cases lines with
  | nil => simp [textSuffix, lineAt]
  | cons l ls => simp [textSuffix, lineAt]

/-- The spec-modelled scanner's tokenization of `"  a\n"`. -/
def c2toks : List Tok :=
  [⟨INDENT, [' ', ' '], (1, 0), (1, 2), "  a\n".toList⟩,
   ⟨NAME, ['a'], (1, 2), (1, 3), "  a\n".toList⟩,
   ⟨NEWLINE, ['\n'], (1, 3), (1, 4), "  a\n".toList⟩,
   ⟨DEDENT, [], (2, 0), (2, 0), []⟩,
   ⟨ENDMARKER, [], (2, 0), (2, 0), []⟩]

/-- C2 counterexample: `"  a\n"` is plain ASCII with no tabs, BOM or
encoding declaration, and its tokenization satisfies the scanner
contract, yet `detokenize` at extra indent 0 drops the leading
indentation: the output is `"a\n"`, not the input text. -/
theorem C2_counterexample :
    tokenize_string "  a\n".toList = .ok c2toks ∧
      wfTokens "  a\n".toList c2toks = true ∧
      detokenize (entries c2toks) 0 = "a\n".toList ∧
      detokenize (entries c2toks) 0 ≠ "  a\n".toList :=
  ⟨rfl, by decide, by decide, by decide⟩

/-- C2 (amended): over the spec-modelled scanner contract, if every
token up to and including the first non-whitespace token starts at
column 0 (so no indentation precedes the first code token, and the
inferred base indentation is 0), `detokenize` at extra indent 0
reproduces the text exactly; and for any re-scan of that output the
second detokenization at indent 0 returns the output unchanged
(idempotence with respect to re-scanning and re-detokenizing). -/
theorem C2_detokenize_roundtrip (text : List Char) (toks toks2 : List Tok)
    (hwf : wfTokens text toks = true) (hlead : leadOK toks = true)
    (hwf2 : wfTokens (detokenize (entries toks) 0) toks2 = true)
    (hlead2 : leadOK toks2 = true) :
    detokenize (entries toks) 0 = text ∧
      detokenize (entries toks2) 0 = detokenize (entries toks) 0 := by
  have main : ∀ (t : List Char) (u : List Tok), wfTokens t u = true →
      leadOK u = true → detokenize (entries u) 0 = t := by
    intro t u hw hl
    simp only [wfTokens, Bool.and_eq_true] at hw
    obtain ⟨hhead, hgo⟩ := hw
    have hh : ∀ v ∈ u.head?, v.start.1 = 1 := by
      cases u with
      | nil => intro v hv; simp at hv
      | cons a l =>
        intro v hv
        simp at hv
        subst hv
        simpa using hhead
    rw [detokenize, flatten_stmt_entries]
    rw [detokGo_textSuffix u (physLines t) 1 0 false dInit
      (physLines_ne_nil t) hgo (by omega) rfl (Or.inl ⟨rfl, hl⟩)
      (Or.inr ⟨rfl, rfl, rfl, hh⟩) (Or.inr (Or.inl hh))]
    rw [textSuffix_one, physLines_flatten]
  exact ⟨main text toks hwf hlead, main _ toks2 hwf2 hlead2⟩

/-- The spec-modelled scanner's tokenization of `"x = 1\n"`. -/
def c2wtoks : List Tok :=
  [⟨NAME, ['x'], (1, 0), (1, 1), "x = 1\n".toList⟩,
   ⟨OP, ['='], (1, 2), (1, 3), "x = 1\n".toList⟩,
   ⟨NUMBER, ['1'], (1, 4), (1, 5), "x = 1\n".toList⟩,
   ⟨NEWLINE, ['\n'], (1, 5), (1, 6), "x = 1\n".toList⟩,
   ⟨ENDMARKER, [], (2, 0), (2, 0), []⟩]

theorem C2_detokenize_roundtrip_witness :
    wfTokens "x = 1\n".toList c2wtoks = true ∧ leadOK c2wtoks = true ∧
      wfTokens (detokenize (entries c2wtoks) 0) c2wtoks = true ∧
      (detokenize (entries c2wtoks) 0 = "x = 1\n".toList ∧
        detokenize (entries c2wtoks) 0 = detokenize (entries c2wtoks) 0) :=
  ⟨by decide, by decide, by decide,
    C2_detokenize_roundtrip "x = 1\n".toList c2wtoks c2wtoks
      (by decide) (by decide) (by decide) (by decide)⟩

end Scale
